import Mathlib

/-!
Verification of the tub-cleaning audit pipeline (`clean_image.py`).

The development shallowly embeds the script: image decoding is abstracted to
an `ImgFile` carrying the outcome of structural verification (`pilValid`) and
of the grayscale decode used for the brightness check (`cvMean`); the on-disk
store is a `Store` with catalog segments (in filesystem enumeration order),
the raw manifest text, and two image directories.  The textual manipulation
of the manifest (`"deleted_indexes": [...]` extraction and in-place regex
substitution) is modelled character-for-character on `List Char`.
-/

namespace CleanImage

/-- Outcome of the two decoders on one image artifact: `pilValid` is whether
`PIL.Image.verify` succeeds, `cvMean` is the grayscale mean if `cv2.imread`
plus the grayscale conversion succeed, `none` if the decode returns no image
or raises. -/
structure ImgFile where
  pilValid : Bool
  cvMean : Option ℚ
deriving DecidableEq, Repr

/-- One parsed catalog record, with the three fields the script reads via
`record.get`: `_index`, `cam/image_array`, `user/angle`. -/
structure Record where
  idx : Option ℤ
  image : Option String
  angle : Option ℚ
deriving DecidableEq, Repr

/-- Reasons the script attaches to a problem entry.  `brightness` carries the
value interpolated into the message (0 when the brightness decode failed). -/
inductive Reason where
  | missingFile
  | invalidImage
  | brightness (value : ℚ)
  | zeroRun
deriving DecidableEq, Repr

/-- A problem entry `(index, path, reason)` as appended to `problem_images`. -/
abbrev Problem := Option ℤ × String × Reason

/-- The on-disk store: root existence, catalog segments in the order `glob`
enumerates them (each line either a parsed record or a JSON decode failure),
the manifest text if present, and the image files of the tub root and of the
`images` subdirectory as association lists keyed by filename. -/
structure Store where
  rootExists : Bool
  catalogs : List (List (Option Record))
  manifest : Option (List Char)
  rootImgs : List (String × ImgFile)
  subImgs : List (String × ImgFile)
deriving DecidableEq, Repr

/-- `os.path.join` as used on the tub path. -/
def pathJoin (a b : String) : String := a ++ "/" ++ b

/-- `get_image_path`: look in the tub root first, then in the `images`
subdirectory; the first existing path wins.  Returns the resolved path
together with the file found there. -/
def get_image_path (st : Store) (tub name : String) : Option (String × ImgFile) :=
  match st.rootImgs.lookup name with
  | some f => some (pathJoin tub name, f)
  | none =>
    match st.subImgs.lookup name with
    | some f => some (pathJoin (pathJoin tub "images") name, f)
    | none => none

/-- `is_valid_image`: structural verification of an existing file. -/
def is_valid_image (f : ImgFile) : Bool := f.pilValid

/-- `check_brightness` on an existing file: decode failure gives
`(false, 0)`; otherwise the mean is compared with strict inequalities against
the two bounds. -/
def check_brightness (f : ImgFile) (minB maxB : ℤ) : Bool × ℚ :=
  match f.cvMean with
  | none => (false, 0)
  | some m => if m < (minB : ℚ) ∨ (maxB : ℚ) < m then (false, m) else (true, m)

/-- Membership of `record.get('_index')` in the deleted-indexes set: `None`
is never a member of a set of integers. -/
def memOpt (i : Option ℤ) (D : Finset ℤ) : Bool :=
  match i with
  | none => false
  | some k => decide (k ∈ D)

/-- The truthiness test `if not img_filename` on `record.get('cam/image_array')`:
both a missing key and an empty string are falsy. -/
def imageNameOf (r : Record) : Option String :=
  match r.image with
  | none => none
  | some s => if s = "" then none else some s

/-- The per-record body of the first loop of `clean_tub_data`: skip deleted
indices, skip records with no image reference, then missing file, structural
validity and brightness checks in order, emitting at most one problem. -/
def frameCheckOne (st : Store) (tub : String) (D : Finset ℤ) (minB maxB : ℤ)
    (r : Record) : Option Problem :=
  if memOpt r.idx D then none
  else
    match imageNameOf r with
    | none => none
    | some name =>
      match get_image_path st tub name with
      | none => some (r.idx, pathJoin tub name, Reason.missingFile)
      | some (p, f) =>
        if is_valid_image f = false then some (r.idx, p, Reason.invalidImage)
        else
          match check_brightness f minB maxB with
          | (ok, b) => if ok then none else some (r.idx, p, Reason.brightness b)

/-- `all_records`: every parseable line of every catalog file, in enumeration
order; unparseable lines are skipped. -/
def loadRecords (st : Store) : List Record :=
  (st.catalogs.map (fun seg => seg.filterMap id)).flatten

/-- The problems found by the first (per-frame) loop. -/
def frameProblems (st : Store) (tub : String) (D : Finset ℤ) (minB maxB : ℤ) :
    List Problem :=
  (loadRecords st).filterMap (frameCheckOne st tub D minB maxB)

/-- Helper for `get_zero_angle_sequences`: walk the records with their
positions, extending the current run while the angle is present and of
magnitude below 0.05, closing it otherwise, and closing the final open run. -/
def gzasAux (i : ℕ) (cur : List ℕ) : List Record → List (List ℕ)
  | [] => if cur = [] then [] else [cur]
  | r :: rest =>
    match r.angle with
    | some a =>
      if |a| < mkRat 1 20 then gzasAux (i + 1) (cur ++ [i]) rest
      else if cur = [] then gzasAux (i + 1) [] rest
      else cur :: gzasAux (i + 1) [] rest
    | none =>
      if cur = [] then gzasAux (i + 1) [] rest
      else cur :: gzasAux (i + 1) [] rest

/-- `get_zero_angle_sequences`: the maximal runs of positions whose record has
a present steering angle of magnitude strictly below 0.05. -/
def get_zero_angle_sequences (rs : List Record) : List (List ℕ) :=
  gzasAux 0 [] rs

/-- The two thresholds written with `mkRat` are the source constants 0.05
and 0.1. -/
theorem threshold_values : mkRat 1 20 = (1 / 20 : ℚ) ∧ mkRat 1 10 = (1 / 10 : ℚ) := by
  constructor <;> rw [Rat.mkRat_eq_div] <;> norm_num

/-- The absolute angles present among positions `lo ≤ i < hi`. -/
def anglesAt (rs : List Record) (lo hi : ℕ) : List ℚ :=
  ((List.range' lo (hi - lo)).filterMap (fun i => (rs.get? i).bind Record.angle)).map abs

/-- `sum(l)/len(l) if l else 0`. -/
def avgOf (l : List ℚ) : ℚ :=
  if l = [] then 0 else l.sum / l.length

/-- Mean absolute angle over the up-to-5 records preceding position `s0`. -/
def preAvg (rs : List Record) (s0 : ℕ) : ℚ :=
  avgOf (anglesAt rs (s0 - 5) s0)

/-- Mean absolute angle over the up-to-5 records following position `sl`. -/
def postAvg (rs : List Record) (sl : ℕ) : ℚ :=
  avgOf (anglesAt rs (sl + 1) (min rs.length (sl + 6)))

/-- Flagging of one run position: skip if the record index is already deleted
or already among the problem indices, then require a present image reference
that resolves to an existing path, and append a zero-run problem. -/
def zeroFlagPos (st : Store) (tub : String) (D : Finset ℤ) (rs : List Record)
    (acc : List Problem) (pos : ℕ) : List Problem :=
  match rs.get? pos with
  | none => acc
  | some r =>
    if memOpt r.idx D then acc
    else if (acc.map (fun p => p.1)).contains r.idx then acc
    else
      match imageNameOf r with
      | none => acc
      | some name =>
        match get_image_path st tub name with
        | none => acc
        | some (p, _) => acc ++ [(r.idx, p, Reason.zeroRun)]

/-- Handling of one detected run: only runs strictly longer than the
threshold are considered, runs with a mean absolute angle strictly above 0.1
on either side are suppressed whole, any other run has each position
flagged. -/
def zeroSeqStep (st : Store) (tub : String) (D : Finset ℤ) (rs : List Record)
    (maxZ : ℤ) (acc : List Problem) (seq : List ℕ) : List Problem :=
  if maxZ < (seq.length : ℤ) then
    if preAvg rs (seq.headD 0) > mkRat 1 10 ∨ postAvg rs (seq.getLastD 0) > mkRat 1 10 then
      acc
    else seq.foldl (zeroFlagPos st tub D rs) acc
  else acc

/-- The merged problem list: the frame pass followed by the zero-angle-run
pass, which appends to the same list. -/
def problemsFor (st : Store) (tub : String) (D : Finset ℤ) (minB maxB maxZ : ℤ) :
    List Problem :=
  (get_zero_angle_sequences (loadRecords st)).foldl
    (zeroSeqStep st tub D (loadRecords st) maxZ)
    (frameProblems st tub D minB maxB)

/-! ### The manifest text: extraction and in-place substitution

`clean_tub_data` reads the whole manifest as text, extracts the previously
deleted indexes with `re.search` applied to the first line containing the
token `"deleted_indexes":`, and on commit rewrites every occurrence of the
pattern `"deleted_indexes": \[.*?\]` with `re.sub`.  The two regular
expressions are modelled directly: `.` does not match a newline, and `.*?\]`
captures up to the first closing bracket. -/

/-- The literal token whose presence selects the manifest line. -/
def patDI : List Char := "\"deleted_indexes\":".toList

/-- The literal head of the regex `"deleted_indexes": \[`. -/
def litDI : List Char := "\"deleted_indexes\": [".toList

/-- Substring test used for `'"deleted_indexes":' in line`. -/
def containsSub (pat : List Char) : List Char → Bool
  | [] => pat.isEmpty
  | c :: rest => pat.isPrefixOf (c :: rest) || containsSub pat rest

/-- `text.split(sep)` on a single separator character. -/
def splitOnChar (sep : Char) : List Char → List (List Char)
  | [] => [[]]
  | c :: rest =>
    if c = sep then [] :: splitOnChar sep rest
    else
      match splitOnChar sep rest with
      | [] => [[c]]
      | l :: ls => (c :: l) :: ls

/-- Whitespace in the sense of Python `str.strip()` (the characters that can
appear here). -/
def isSpaceCh (c : Char) : Bool :=
  c = ' ' || c = '\t' || c = '\n' || c = '\r'

/-- Python `str.strip()`. -/
def stripChars (l : List Char) : List Char :=
  ((l.dropWhile isSpaceCh).reverse.dropWhile isSpaceCh).reverse

/-- Decimal digit test. -/
def isDigitCh (c : Char) : Bool := '0' ≤ c && c ≤ '9'

/-- Numeric value of a digit character. -/
def digitVal (c : Char) : ℕ := c.toNat - 48

/-- Parse a nonempty all-digit string. -/
def parseDigits (l : List Char) : Option ℕ :=
  if l = [] then none
  else if l.all isDigitCh then some (l.foldl (fun a c => 10 * a + digitVal c) 0)
  else none

/-- Python `int(s.strip())`: strip, optional sign, digits; any other shape
raises, modelled as `none`. -/
def parsePyInt (l : List Char) : Option ℤ :=
  let s := stripChars l
  if s.head? = some '-' then (parseDigits s.tail).map (fun n => -(n : ℤ))
  else if s.head? = some '+' then (parseDigits s.tail).map (fun n => (n : ℤ))
  else (parseDigits s).map (fun n => (n : ℤ))

/-- The capture of `.*?\]`: the characters up to the first `]`, failing on a
newline or the end of the text. -/
def captureToRB : List Char → Option (List Char × List Char)
  | [] => none
  | c :: rest =>
    if c = ']' then some ([], rest)
    else if c = '\n' then none
    else (captureToRB rest).map (fun pr => (c :: pr.1, pr.2))

/-- `re.search('"deleted_indexes": \[(.*?)\]', line)`: the capture group of
the leftmost match. -/
def reSearchDI : List Char → Option (List Char)
  | [] => none
  | c :: rest =>
    if litDI.isPrefixOf (c :: rest) then
      match captureToRB ((c :: rest).drop litDI.length) with
      | some pr => some pr.1
      | none => reSearchDI rest
    else reSearchDI rest

theorem captureToRB_length {l : List Char} {pr : List Char × List Char}
    (h : captureToRB l = some pr) : pr.2.length < l.length := by
  induction l generalizing pr with
  | nil => simp [captureToRB] at h
  | cons c rest ih =>
    by_cases hc : c = ']'
    · simp [captureToRB, hc] at h
      subst h
      simp
    · by_cases hn : c = '\n'
      · simp [captureToRB, hc, hn] at h
      · simp only [captureToRB, hc, hn, if_false] at h
        match hrec : captureToRB rest with
        | none => rw [hrec] at h; simp [Option.map] at h
        | some q =>
          rw [hrec] at h
          simp only [Option.map, Option.some.injEq] at h
          have := ih hrec
          rw [← h]
          simpa using Nat.lt_succ_of_lt this

/-- `re.sub('"deleted_indexes": \[.*?\]', repl, text)`: replace every
non-overlapping leftmost match, scanning left to right. -/
def reSubDI (repl : List Char) : List Char → List Char
  | [] => []
  | c :: rest =>
    if litDI.isPrefixOf (c :: rest) then
      match h : captureToRB ((c :: rest).drop litDI.length) with
      | some pr => repl ++ reSubDI repl pr.2
      | none => c :: reSubDI repl rest
    else c :: reSubDI repl rest
termination_by l => l.length
decreasing_by
  · have h1 : pr.2.length < ((c :: rest).drop litDI.length).length := captureToRB_length h
    have h2 : ((c :: rest).drop litDI.length).length ≤ (c :: rest).length := by
      simp [List.length_drop]
    omega
  · simp
  · simp

/-- Parse every comma-separated piece; one failure raises. -/
def parseAll : List (List Char) → Option (List ℤ)
  | [] => some []
  | p :: ps =>
    match parsePyInt p, parseAll ps with
    | some v, some vs => some (v :: vs)
    | _, _ => none

/-- The extracted capture parsed into a set of indices: empty (after
stripping) means the empty set, otherwise split on commas and parse each
piece, any failure raising. -/
def parseIdxList (cap : List Char) : Option (Finset ℤ) :=
  let s := stripChars cap
  if s = [] then some (∅ : Finset ℤ)
  else (parseAll (splitOnChar ',' s)).map List.toFinset

/-- The manifest-reading loop: split on newlines, take the first line
containing the token, apply the regular expression there; no such line or no
match leaves the set empty; `none` models an exception while parsing. -/
def loadDeleted (m : List Char) : Option (Finset ℤ) :=
  match (splitOnChar '\n' m).find? (fun l => containsSub patDI l) with
  | none => some (∅ : Finset ℤ)
  | some line =>
    match reSearchDI line with
    | none => some (∅ : Finset ℤ)
    | some cap => parseIdxList cap

/-- The character of one decimal digit. -/
def digitCh (d : ℕ) : Char :=
  if d = 0 then '0' else if d = 1 then '1' else if d = 2 then '2'
  else if d = 3 then '3' else if d = 4 then '4' else if d = 5 then '5'
  else if d = 6 then '6' else if d = 7 then '7' else if d = 8 then '8' else '9'

/-- Decimal digits of a natural number, most significant first. -/
def natCharsAux (n : ℕ) (acc : List Char) : List Char :=
  if h : n < 10 then digitCh n :: acc
  else natCharsAux (n / 10) (digitCh (n % 10) :: acc)
termination_by n
decreasing_by
  exact Nat.div_lt_self (by omega) (by omega)

/-- `str(n)` for a natural number. -/
def natChars (n : ℕ) : List Char := natCharsAux n []

/-- `str(i)` / `json.dumps(i)` for an integer. -/
def intChars (i : ℤ) : List Char :=
  if i < 0 then '-' :: natChars i.natAbs else natChars i.toNat

/-- `json.dumps` of one element of the written list (`None` becomes `null`). -/
def dumpElem : Option ℤ → List Char
  | none => "null".toList
  | some i => intChars i

/-- `", ".join` as produced by `json.dumps` on a list. -/
def intercalateComma : List (List Char) → List Char
  | [] => []
  | [x] => x
  | x :: y :: rest => x ++ ", ".toList ++ intercalateComma (y :: rest)

/-- The text between the brackets of the dumped list. -/
def dumpsBody (xs : List (Option ℤ)) : List Char :=
  intercalateComma (xs.map dumpElem)

/-- `json.dumps` of the sorted list of indices. -/
def dumpsList (xs : List (Option ℤ)) : List Char :=
  '[' :: (dumpsBody xs ++ [']'])

/-- The replacement string `'"deleted_indexes": ' + json.dumps(...)`. -/
def replOf (xs : List (Option ℤ)) : List Char :=
  "\"deleted_indexes\": ".toList ++ dumpsList xs

/-- `sorted(list(deleted_indexes | set(new)))` over the mixed set of integers
and possibly `None` indices: comparing `None` with an integer raises
(modelled as `none`); a singleton needs no comparison. -/
def sortedNewList (D : Finset ℤ) (newIdx : List (Option ℤ)) : Option (List (Option ℤ)) :=
  if (none : Option ℤ) ∈ newIdx then
    if D = ∅ ∧ newIdx.all (fun o => o = none) then some [none] else none
  else some (((D ∪ (newIdx.filterMap id).toFinset).sort (· ≤ ·)).map some)

/-- Errors of one run: the three structural early returns (which print and
return normally) and the two uncaught exceptions (manifest index parsing and
the `sorted` call on a set containing `None`). -/
inductive AuditErr where
  | storeNotFound
  | catalogMissing
  | manifestMissing
  | loadCrash
  | commitCrash
deriving DecidableEq, Repr

/-- `clean_tub_data`: structural checks, manifest load, the two problem
passes, and the optional in-place manifest rewrite.  On success it returns
the problem list and the resulting on-disk store. -/
def clean_tub_data (st : Store) (tub : String) (remove : Bool)
    (maxB minB maxZ : ℤ) : Except AuditErr (List Problem × Store) :=
  if st.rootExists = false then .error .storeNotFound
  else if st.catalogs = [] then .error .catalogMissing
  else
    match st.manifest with
    | none => .error .manifestMissing
    | some m =>
      match loadDeleted m with
      | none => .error .loadCrash
      | some D =>
        let ps := problemsFor st tub D minB maxB maxZ
        if ps = [] then .ok (ps, st)
        else if remove then
          match sortedNewList D (ps.map (fun p => p.1)) with
          | none => .error .commitCrash
          | some xs =>
            .ok (ps, { st with manifest := some (reSubDI (replOf xs) m) })
        else .ok (ps, st)

/-- The on-disk store after one `remove` run: early returns and uncaught
exceptions leave the disk unchanged. -/
def auditStep (st : Store) (tub : String) (maxB minB maxZ : ℤ) : Store :=
  match clean_tub_data st tub true maxB minB maxZ with
  | .ok pr => pr.2
  | .error _ => st

/-- The process exit status of `main`: 0 on normal return (also after the
printed structural failures), 1 when an exception escapes. -/
def mainExit (st : Store) (tub : String) (remove : Bool) (maxB minB maxZ : ℤ) : ℕ :=
  match clean_tub_data st tub remove maxB minB maxZ with
  | .ok _ => 0
  | .error .loadCrash => 1
  | .error .commitCrash => 1
  | .error _ => 0

/-- The Store Adapter commit as the spec isolates it: compute the union with
the set currently in the manifest text and substitute the sorted result into
the text. -/
def commitManifest (m : List Char) (newIdx : List ℤ) : Option (List Char) :=
  match loadDeleted m with
  | none => none
  | some D =>
    some (reSubDI (replOf (((D ∪ newIdx.toFinset).sort (· ≤ ·)).map some)) m)

/-- The on-disk store after one run with arbitrary flags. -/
def runDisk (st : Store) (tub : String) (remove : Bool) (maxB minB maxZ : ℤ) : Store :=
  match clean_tub_data st tub remove maxB minB maxZ with
  | .ok pr => pr.2
  | .error _ => st

/-- The integer indices of a record list, in list order. -/
def idxList (rs : List Record) : List ℤ := rs.filterMap Record.idx

/-- The record list is sorted by record index ascending. -/
def recordsSortedByIndex (rs : List Record) : Prop :=
  List.Sorted (· ≤ ·) (idxList rs)

/-! ### Concrete stores used as counterexamples and witnesses -/

/-- A structurally valid, decodable image of mean intensity 100. -/
def imgOk : ImgFile := { pilValid := true, cvMean := some 100 }

/-- A structurally valid image whose brightness decode fails. -/
def imgBadDecode : ImgFile := { pilValid := true, cvMean := none }

/-- A structurally valid, decodable image of the given mean intensity. -/
def imgMean (m : ℚ) : ImgFile := { pilValid := true, cvMean := some m }

/-- Record constructor shorthand. -/
def mkRec (i : ℤ) (img : Option String) (a : Option ℚ) : Record :=
  { idx := some i, image := img, angle := a }

/-- A minimal manifest text with an empty canonical deletion field. -/
def mfEmpty : List Char := "\"deleted_indexes\": []".toList

/-- Store with a zero-angle run of length 3 whose middle record carries no
image reference. -/
def cexStore3 : Store :=
  { rootExists := true
    catalogs := [[some (mkRec 0 (some "a.jpg") (some (mkRat 1 100))),
                  some (mkRec 1 none (some (mkRat 1 50))),
                  some (mkRec 2 (some "c.jpg") (some (mkRat 1 100)))]]
    manifest := some mfEmpty
    rootImgs := [("a.jpg", imgOk), ("c.jpg", imgOk)]
    subImgs := [] }

/-- Store whose two catalog segments are enumerated in reverse index order. -/
def cexStore4 : Store :=
  { rootExists := true
    catalogs := [[some (mkRec 2 none none)], [some (mkRec 1 none none)]]
    manifest := some mfEmpty
    rootImgs := []
    subImgs := [] }

/-- Store whose single image passes structural verification but fails the
brightness decode. -/
def cexStore5 : Store :=
  { rootExists := true
    catalogs := [[some (mkRec 0 (some "a.jpg") none)]]
    manifest := some mfEmpty
    rootImgs := [("a.jpg", imgBadDecode)]
    subImgs := [] }

/-- Store with one record whose image file is absent. -/
def cexStore9p : Store :=
  { rootExists := true
    catalogs := [[some (mkRec 0 (some "missing.jpg") none)]]
    manifest := some mfEmpty
    rootImgs := []
    subImgs := [] }

/-- Store on which the audit finds nothing. -/
def cleanStore : Store :=
  { rootExists := true
    catalogs := [[some (mkRec 0 (some "a.jpg") none)]]
    manifest := some mfEmpty
    rootImgs := [("a.jpg", imgOk)]
    subImgs := [] }

/-- Store whose root does not exist. -/
def deadStore : Store :=
  { rootExists := false, catalogs := [], manifest := none, rootImgs := [], subImgs := [] }

/-- A manifest whose `deleted_indexes` field is written without a space after
the colon: the extraction and the substitution regexes both miss it. -/
def cexManifest2 : List Char := "\"deleted_indexes\":[]".toList

/-- Store whose records sit at the brightness bounds, for the inclusive-bound
witness: indices 0 and 1 at the bounds, 2 and 3 one unit outside. -/
def boundStore : Store :=
  { rootExists := true
    catalogs := [[some (mkRec 0 (some "lo.jpg") none),
                  some (mkRec 1 (some "hi.jpg") none),
                  some (mkRec 2 (some "lo2.jpg") none),
                  some (mkRec 3 (some "hi2.jpg") none)]]
    manifest := some mfEmpty
    rootImgs := [("lo.jpg", imgMean 20), ("hi.jpg", imgMean 250),
                 ("lo2.jpg", imgMean 19), ("hi2.jpg", imgMean 251)]
    subImgs := [] }

/-! ### Theorems -/

theorem frameCheckOne_not_deleted {st : Store} {tub : String} {D : Finset ℤ}
    {minB maxB : ℤ} {r : Record} {pr : Problem}
    (h : frameCheckOne st tub D minB maxB r = some pr) :
    pr.1 = r.idx ∧ memOpt r.idx D = false := by
  by_cases hD : memOpt r.idx D
  · simp [frameCheckOne, hD] at h
  · refine ⟨?_, by simpa using hD⟩
    cases hn : imageNameOf r with
    | none => simp [frameCheckOne, hD, hn] at h
    | some name =>
      cases hp : get_image_path st tub name with
      | none =>
        simp [frameCheckOne, hD, hn, hp] at h
        subst h
        rfl
      | some pf =>
        by_cases hv : is_valid_image pf.2 = false
        · simp [frameCheckOne, hD, hn, hp, hv] at h
          subst h
          rfl
        · rcases hb : check_brightness pf.2 minB maxB with ⟨ok, b⟩
          cases ok
          · simp [frameCheckOne, hD, hn, hp, hv, hb] at h
            subst h
            rfl
          · simp [frameCheckOne, hD, hn, hp, hv, hb] at h

theorem frameCheckOne_reason_not_zeroRun {st : Store} {tub : String} {D : Finset ℤ}
    {minB maxB : ℤ} {r : Record} {pr : Problem}
    (h : frameCheckOne st tub D minB maxB r = some pr) :
    pr.2.2 ≠ Reason.zeroRun := by
  by_cases hD : memOpt r.idx D
  · simp [frameCheckOne, hD] at h
  · cases hn : imageNameOf r with
    | none => simp [frameCheckOne, hD, hn] at h
    | some name =>
      cases hp : get_image_path st tub name with
      | none =>
        simp [frameCheckOne, hD, hn, hp] at h
        subst h
        simp
      | some pf =>
        by_cases hv : is_valid_image pf.2 = false
        · simp [frameCheckOne, hD, hn, hp, hv] at h
          subst h
          simp
        · rcases hb : check_brightness pf.2 minB maxB with ⟨ok, b⟩
          cases ok
          · simp [frameCheckOne, hD, hn, hp, hv, hb] at h
            subst h
            simp
          · simp [frameCheckOne, hD, hn, hp, hv, hb] at h

theorem zeroFlagPos_extend (st : Store) (tub : String) (D : Finset ℤ)
    (rs : List Record) (acc : List Problem) (pos : ℕ) :
    ∃ t, zeroFlagPos st tub D rs acc pos = acc ++ t := by
  unfold zeroFlagPos
  split
  · exact ⟨[], by simp⟩
  · split
    · exact ⟨[], by simp⟩
    · split
      · exact ⟨[], by simp⟩
      · split
        · exact ⟨[], by simp⟩
        · split
          · exact ⟨[], by simp⟩
          · exact ⟨_, rfl⟩

theorem foldl_flag_extend (st : Store) (tub : String) (D : Finset ℤ)
    (rs : List Record) (seq : List ℕ) :
    ∀ acc, ∃ t, seq.foldl (zeroFlagPos st tub D rs) acc = acc ++ t := by
  induction seq with
  | nil => exact fun acc => ⟨[], by simp⟩
  | cons pos rest ih =>
    intro acc
    obtain ⟨t1, h1⟩ := zeroFlagPos_extend st tub D rs acc pos
    obtain ⟨t2, h2⟩ := ih (zeroFlagPos st tub D rs acc pos)
    refine ⟨t1 ++ t2, ?_⟩
    simp only [List.foldl_cons]
    rw [h2, h1, List.append_assoc]

theorem zeroSeqStep_extend (st : Store) (tub : String) (D : Finset ℤ)
    (rs : List Record) (maxZ : ℤ) (acc : List Problem) (seq : List ℕ) :
    ∃ t, zeroSeqStep st tub D rs maxZ acc seq = acc ++ t := by
  unfold zeroSeqStep
  split
  · split
    · exact ⟨[], by simp⟩
    · exact foldl_flag_extend st tub D rs seq acc
  · exact ⟨[], by simp⟩

theorem foldl_seq_extend (st : Store) (tub : String) (D : Finset ℤ)
    (rs : List Record) (maxZ : ℤ) (seqs : List (List ℕ)) :
    ∀ acc, ∃ t, seqs.foldl (zeroSeqStep st tub D rs maxZ) acc = acc ++ t := by
  induction seqs with
  | nil => exact fun acc => ⟨[], by simp⟩
  | cons seq rest ih =>
    intro acc
    obtain ⟨t1, h1⟩ := zeroSeqStep_extend st tub D rs maxZ acc seq
    obtain ⟨t2, h2⟩ := ih (zeroSeqStep st tub D rs maxZ acc seq)
    refine ⟨t1 ++ t2, ?_⟩
    simp only [List.foldl_cons]
    rw [h2, h1, List.append_assoc]

theorem problemsFor_extend (st : Store) (tub : String) (D : Finset ℤ)
    (minB maxB maxZ : ℤ) :
    ∃ t, problemsFor st tub D minB maxB maxZ = frameProblems st tub D minB maxB ++ t :=
  foldl_seq_extend st tub D (loadRecords st) maxZ
    (get_zero_angle_sequences (loadRecords st)) (frameProblems st tub D minB maxB)

/-- Provenance of one flagging step: an element of the output is either old
or the appended zero-run entry, together with the guards that let it in. -/
theorem zeroFlagPos_mem {st : Store} {tub : String} {D : Finset ℤ}
    {rs : List Record} {acc : List Problem} {pos : ℕ} {x : Problem}
    (h : x ∈ zeroFlagPos st tub D rs acc pos) :
    x ∈ acc ∨
      ∃ r name p f, rs.get? pos = some r ∧ memOpt r.idx D = false ∧
        ((acc.map (fun q => q.1)).contains r.idx) = false ∧
        imageNameOf r = some name ∧ get_image_path st tub name = some (p, f) ∧
        x = (r.idx, p, Reason.zeroRun) := by
  unfold zeroFlagPos at h
  split at h
  · exact Or.inl h
  next r hr =>
    split at h
    · exact Or.inl h
    next hD =>
      split at h
      · exact Or.inl h
      next hc =>
        split at h
        · exact Or.inl h
        next name hn =>
          split at h
          · exact Or.inl h
          next p f hp =>
            rcases List.mem_append.mp h with hx | hx
            · exact Or.inl hx
            · refine Or.inr ⟨r, name, p, f, hr, by simpa using hD, by simpa using hc, hn, hp, ?_⟩
              simpa using hx

/-- Provenance through the positions of one run, keeping track of a base
list contained in the accumulator. -/
theorem foldl_flag_mem {st : Store} {tub : String} {D : Finset ℤ}
    {rs : List Record} {base : List Problem} {x : Problem} :
    ∀ {seq : List ℕ} {acc : List Problem},
      x ∈ seq.foldl (zeroFlagPos st tub D rs) acc → (∀ q ∈ base, q ∈ acc) →
      x ∈ acc ∨
        ∃ pos ∈ seq, ∃ r name p f, rs.get? pos = some r ∧ memOpt r.idx D = false ∧
          imageNameOf r = some name ∧ get_image_path st tub name = some (p, f) ∧
          x = (r.idx, p, Reason.zeroRun) ∧ ∀ q ∈ base, q.1 ≠ r.idx := by
  intro seq
  induction seq with
  | nil => intro acc h _; exact Or.inl h
  | cons pos rest ih =>
    intro acc h hbase
    have hbase2 : ∀ q ∈ base, q ∈ zeroFlagPos st tub D rs acc pos := by
      obtain ⟨t, ht⟩ := zeroFlagPos_extend st tub D rs acc pos
      intro q hq
      rw [ht]
      exact List.mem_append_left t (hbase q hq)
    rcases ih (by simpa using h) hbase2 with hx | hx
    · rcases zeroFlagPos_mem hx with hx2 | hx2
      · exact Or.inl hx2
      · obtain ⟨r, name, p, f, h1, h2, h3, h4, h5, h6⟩ := hx2
        refine Or.inr ⟨pos, by simp, r, name, p, f, h1, h2, h4, h5, h6, ?_⟩
        intro q hq hq1
        have hmem : r.idx ∈ acc.map (fun q => q.1) :=
          List.mem_map.mpr ⟨q, hbase q hq, hq1⟩
        simp at h3
        exact absurd hmem (by simpa using h3)
    · obtain ⟨pos2, hpos2, rest2⟩ := hx
      exact Or.inr ⟨pos2, by simp [hpos2], rest2⟩

/-- Provenance through one run: an element of the output is either old, or a
zero-run entry of a long enough, unsuppressed run. -/
theorem zeroSeqStep_mem {st : Store} {tub : String} {D : Finset ℤ}
    {rs : List Record} {maxZ : ℤ} {base acc : List Problem} {seq : List ℕ} {x : Problem}
    (h : x ∈ zeroSeqStep st tub D rs maxZ acc seq) (hbase : ∀ q ∈ base, q ∈ acc) :
    x ∈ acc ∨
      (maxZ < (seq.length : ℤ) ∧ preAvg rs (seq.headD 0) ≤ mkRat 1 10 ∧
        postAvg rs (seq.getLastD 0) ≤ mkRat 1 10 ∧
        ∃ pos ∈ seq, ∃ r name p f, rs.get? pos = some r ∧ memOpt r.idx D = false ∧
          imageNameOf r = some name ∧ get_image_path st tub name = some (p, f) ∧
          x = (r.idx, p, Reason.zeroRun) ∧ ∀ q ∈ base, q.1 ≠ r.idx) := by
  unfold zeroSeqStep at h
  split at h
  next hlen =>
    split at h
    · exact Or.inl h
    next havg =>
      push_neg at havg
      rcases foldl_flag_mem h hbase with hx | hx
      · exact Or.inl hx
      · exact Or.inr ⟨hlen, havg.1, havg.2, hx⟩
  · exact Or.inl h

/-- Provenance through the whole zero-angle pass. -/
theorem foldl_seq_mem {st : Store} {tub : String} {D : Finset ℤ}
    {rs : List Record} {maxZ : ℤ} {base : List Problem} {x : Problem} :
    ∀ {seqs : List (List ℕ)} {acc : List Problem},
      x ∈ seqs.foldl (zeroSeqStep st tub D rs maxZ) acc → (∀ q ∈ base, q ∈ acc) →
      x ∈ acc ∨
        ∃ seq ∈ seqs, maxZ < (seq.length : ℤ) ∧ preAvg rs (seq.headD 0) ≤ mkRat 1 10 ∧
          postAvg rs (seq.getLastD 0) ≤ mkRat 1 10 ∧
          ∃ pos ∈ seq, ∃ r name p f, rs.get? pos = some r ∧ memOpt r.idx D = false ∧
            imageNameOf r = some name ∧ get_image_path st tub name = some (p, f) ∧
            x = (r.idx, p, Reason.zeroRun) ∧ ∀ q ∈ base, q.1 ≠ r.idx := by
  intro seqs
  induction seqs with
  | nil => intro acc h _; exact Or.inl h
  | cons seq rest ih =>
    intro acc h hbase
    have hbase2 : ∀ q ∈ base, q ∈ zeroSeqStep st tub D rs maxZ acc seq := by
      obtain ⟨t, ht⟩ := zeroSeqStep_extend st tub D rs maxZ acc seq
      intro q hq
      rw [ht]
      exact List.mem_append_left t (hbase q hq)
    rcases ih (by simpa using h) hbase2 with hx | hx
    · rcases zeroSeqStep_mem hx hbase with hx2 | hx2
      · exact Or.inl hx2
      · exact Or.inr ⟨seq, by simp, hx2⟩
    · obtain ⟨seq2, hseq2, rest2⟩ := hx
      exact Or.inr ⟨seq2, by simp [hseq2], rest2⟩

/-- Every merged problem either comes from the frame pass or is a zero-run
entry with the guards of the zero-angle pass. -/
theorem problemsFor_mem {st : Store} {tub : String} {D : Finset ℤ}
    {minB maxB maxZ : ℤ} {x : Problem}
    (h : x ∈ problemsFor st tub D minB maxB maxZ) :
    x ∈ frameProblems st tub D minB maxB ∨
      ∃ seq ∈ get_zero_angle_sequences (loadRecords st),
        maxZ < (seq.length : ℤ) ∧
        preAvg (loadRecords st) (seq.headD 0) ≤ mkRat 1 10 ∧
        postAvg (loadRecords st) (seq.getLastD 0) ≤ mkRat 1 10 ∧
        ∃ pos ∈ seq, ∃ r name p f, (loadRecords st).get? pos = some r ∧
          memOpt r.idx D = false ∧
          imageNameOf r = some name ∧ get_image_path st tub name = some (p, f) ∧
          x = (r.idx, p, Reason.zeroRun) ∧
          ∀ q ∈ frameProblems st tub D minB maxB, q.1 ≠ r.idx :=
  foldl_seq_mem h (fun _ hq => hq)

/-- No problem entry carries an index of the deletion set loaded from the
manifest (frame pass and zero-angle pass both skip them). -/
theorem problemsFor_not_deleted {st : Store} {tub : String} {D : Finset ℤ}
    {minB maxB maxZ : ℤ} {x : Problem}
    (h : x ∈ problemsFor st tub D minB maxB maxZ) :
    memOpt x.1 D = false := by
  rcases problemsFor_mem h with hx | hx
  · obtain ⟨r, _, hc⟩ := List.mem_filterMap.mp hx
    obtain ⟨h1, h2⟩ := frameCheckOne_not_deleted hc
    rw [h1, h2]
  · obtain ⟨seq, _, _, _, _, pos, _, r, name, p, f, _, h2, _, _, h5, _⟩ := hx
    rw [h5, h2]

/-- Completeness of one run's flagging: a qualifying position whose record is
not deleted and resolves its image ends up represented in the output (either
it is appended now or an entry with its index was already present). -/
theorem foldl_flag_complete {st : Store} {tub : String} {D : Finset ℤ}
    {rs : List Record} {r : Record} {name p : String} {f : ImgFile} :
    ∀ {seq : List ℕ} (acc : List Problem) {pos : ℕ}, pos ∈ seq →
      rs.get? pos = some r → memOpt r.idx D = false →
      imageNameOf r = some name → get_image_path st tub name = some (p, f) →
      ∃ e ∈ seq.foldl (zeroFlagPos st tub D rs) acc, e.1 = r.idx := by
  intro seq
  induction seq with
  | nil => intro acc pos h; simp at h
  | cons q rest ih =>
    intro acc pos hpos hr hD hn hp
    rcases List.mem_cons.mp hpos with heq | hmem
    · subst heq
      by_cases hc : (acc.map (fun z => z.1)).contains r.idx
      · have hex : ∃ e ∈ acc, e.1 = r.idx := by
          have : r.idx ∈ acc.map (fun z => z.1) := by simpa using hc
          obtain ⟨e, he, he1⟩ := List.mem_map.mp this
          exact ⟨e, he, he1⟩
        obtain ⟨e, he, he1⟩ := hex
        obtain ⟨t1, ht1⟩ := zeroFlagPos_extend st tub D rs acc pos
        obtain ⟨t2, ht2⟩ := foldl_flag_extend st tub D rs rest (zeroFlagPos st tub D rs acc pos)
        refine ⟨e, ?_, he1⟩
        simp only [List.foldl_cons]
        rw [ht2, ht1]
        exact List.mem_append_left _ (List.mem_append_left _ he)
      · have hr2 : rs[pos]? = some r := by
          rw [← List.get?_eq_getElem?]
          exact hr
        have hc2 : ∀ (s : String) (re : Reason), (r.idx, s, re) ∉ acc := by
          simpa using hc
        have hstep : zeroFlagPos st tub D rs acc pos = acc ++ [(r.idx, p, Reason.zeroRun)] := by
          simp [zeroFlagPos, hr2, hD, hn, hp]
          exact hc2
        obtain ⟨t2, ht2⟩ := foldl_flag_extend st tub D rs rest (zeroFlagPos st tub D rs acc pos)
        refine ⟨(r.idx, p, Reason.zeroRun), ?_, rfl⟩
        simp only [List.foldl_cons]
        rw [ht2, hstep]
        simp
    · exact ih _ hmem hr hD hn hp

/-- Completeness of the whole zero-angle pass: a qualifying position of a
long-enough, unsuppressed run whose record is not deleted and resolves its
image is represented in the final list. -/
theorem foldl_seq_complete {st : Store} {tub : String} {D : Finset ℤ}
    {rs : List Record} {maxZ : ℤ} {r : Record} {name p : String} {f : ImgFile}
    {seq : List ℕ} {pos : ℕ} :
    ∀ {seqs : List (List ℕ)} (acc : List Problem), seq ∈ seqs →
      maxZ < (seq.length : ℤ) →
      preAvg rs (seq.headD 0) ≤ mkRat 1 10 → postAvg rs (seq.getLastD 0) ≤ mkRat 1 10 →
      pos ∈ seq → rs.get? pos = some r → memOpt r.idx D = false →
      imageNameOf r = some name → get_image_path st tub name = some (p, f) →
      ∃ e ∈ seqs.foldl (zeroSeqStep st tub D rs maxZ) acc, e.1 = r.idx := by
  intro seqs
  induction seqs with
  | nil => intro acc h; simp at h
  | cons s rest ih =>
    intro acc hseq hlen hpre hpost hpos hr hD hn hp
    rcases List.mem_cons.mp hseq with heq | hmem
    · subst heq
      have hsup : ¬(preAvg rs (seq.headD 0) > mkRat 1 10 ∨ postAvg rs (seq.getLastD 0) > mkRat 1 10) := by
        push_neg
        exact ⟨hpre, hpost⟩
      have hstep : zeroSeqStep st tub D rs maxZ acc seq =
          seq.foldl (zeroFlagPos st tub D rs) acc := by
        unfold zeroSeqStep
        rw [if_pos hlen, if_neg hsup]
      obtain ⟨e, he, he1⟩ := foldl_flag_complete acc hpos hr hD hn hp
      obtain ⟨t2, ht2⟩ := foldl_seq_extend st tub D rs maxZ rest (zeroSeqStep st tub D rs maxZ acc seq)
      refine ⟨e, ?_, he1⟩
      simp only [List.foldl_cons]
      rw [ht2, hstep]
      exact List.mem_append_left _ he
    · exact ih _ hmem hlen hpre hpost hpos hr hD hn hp

/-- C1 core: no merged problem entry carries a deleted index. -/
theorem problemsFor_ne_deleted {st : Store} {tub : String} {D : Finset ℤ}
    {minB maxB maxZ : ℤ} {x : Problem} (h : x ∈ problemsFor st tub D minB maxB maxZ)
    {i : ℤ} (hi : i ∈ D) : x.1 ≠ some i := by
  intro hcon
  have hnd := problemsFor_not_deleted h
  rw [hcon] at hnd
  simp [memOpt] at hnd
  exact hnd hi

/-- C1: the audit never emits a problem entry whose index is in the deletion
index loaded from the manifest: the frame pass skips such records before any
check and the zero-run pass never flags them. -/
theorem audit_never_flags_deleted (st : Store) (tub : String) (remove : Bool)
    (maxB minB maxZ : ℤ) (ps : List Problem) (st2 : Store) (m : List Char) (D : Finset ℤ)
    (hm : st.manifest = some m) (hD : loadDeleted m = some D)
    (hok : clean_tub_data st tub remove maxB minB maxZ = .ok (ps, st2)) :
    ∀ pr ∈ ps, ∀ i ∈ D, pr.1 ≠ some i := by
  have hps : ps = problemsFor st tub D minB maxB maxZ := by
    simp only [clean_tub_data] at hok
    split at hok
    · cases hok
    · split at hok
      · cases hok
      · split at hok
        · cases hok
        next m2 hm2 =>
          rw [hm] at hm2
          injection hm2 with hm2
          subst hm2
          split at hok
          · cases hok
          next D2 hD2 =>
            rw [hD] at hD2
            injection hD2 with hD2
            subst hD2
            split at hok
            · injection hok with hok2
              injection hok2 with h1 h2
              exact h1.symm
            · split at hok
              · split at hok
                · cases hok
                · injection hok with hok2
                  injection hok2 with h1 h2
                  exact h1.symm
              · injection hok with hok2
                injection hok2 with h1 h2
                exact h1.symm
  intro pr hpr i hi
  rw [hps] at hpr
  exact problemsFor_ne_deleted hpr hi

/-- Store and manifest for the deletion-skip witness: index 5 is already
deleted, index 0 has a missing image file. -/
def mf5 : List Char := "\"deleted_indexes\": [5]".toList

/-- Witness store for C1. -/
def wStoreC1 : Store :=
  { rootExists := true
    catalogs := [[some (mkRec 0 (some "missing.jpg") none)]]
    manifest := some mf5
    rootImgs := []
    subImgs := [] }

/-- Witness for C1 at a concrete store with a nonempty deletion index. -/
theorem audit_never_flags_deleted_witness :
    (some 0 : Option ℤ) ≠ some 5 :=
  audit_never_flags_deleted wStoreC1 "t" false 250 20 10
    [((some 0 : Option ℤ), pathJoin "t" "missing.jpg", Reason.missingFile)] wStoreC1
    mf5 {5} rfl (by decide) (by rfl)
    ((some 0 : Option ℤ), pathJoin "t" "missing.jpg", Reason.missingFile)
    (by simp) 5 (by decide)

/-- C6: when the brightness decode succeeds with mean `m`, a mean inside the
closed interval (bounds included) yields no problem, and a mean strictly
outside yields a brightness problem carrying `m`. -/
theorem brightness_bounds_inclusive (st : Store) (tub name p : String) (D : Finset ℤ)
    (minB maxB : ℤ) (r : Record) (f : ImgFile) (m : ℚ)
    (hD : memOpt r.idx D = false) (hn : imageNameOf r = some name)
    (hg : get_image_path st tub name = some (p, f))
    (hv : f.pilValid = true) (hm : f.cvMean = some m) :
    (((minB : ℚ) ≤ m ∧ m ≤ (maxB : ℚ)) → frameCheckOne st tub D minB maxB r = none) ∧
    ((m < (minB : ℚ) ∨ (maxB : ℚ) < m) →
      frameCheckOne st tub D minB maxB r = some (r.idx, p, Reason.brightness m)) := by
  constructor
  · intro hin
    have hcond : ¬(m < (minB : ℚ) ∨ (maxB : ℚ) < m) := by
      push_neg
      exact hin
    simp [frameCheckOne, hD, hn, hg, is_valid_image, hv, check_brightness, hm, hcond]
  · intro hout
    simp [frameCheckOne, hD, hn, hg, is_valid_image, hv, check_brightness, hm, hout]

/-- Witness for C6 at the two bounds and one unit outside each. -/
theorem brightness_bounds_inclusive_witness :
    frameCheckOne boundStore "t" ∅ 20 250 (mkRec 0 (some "lo.jpg") none) = none ∧
    frameCheckOne boundStore "t" ∅ 20 250 (mkRec 1 (some "hi.jpg") none) = none ∧
    frameCheckOne boundStore "t" ∅ 20 250 (mkRec 2 (some "lo2.jpg") none) =
      some (some 2, pathJoin "t" "lo2.jpg", Reason.brightness 19) ∧
    frameCheckOne boundStore "t" ∅ 20 250 (mkRec 3 (some "hi2.jpg") none) =
      some (some 3, pathJoin "t" "hi2.jpg", Reason.brightness 251) :=
  ⟨(brightness_bounds_inclusive boundStore "t" "lo.jpg" (pathJoin "t" "lo.jpg") ∅ 20 250
      (mkRec 0 (some "lo.jpg") none) (imgMean 20) 20 (by decide) (by decide) (by decide)
      (by decide) (by decide)).1 (by norm_num),
   (brightness_bounds_inclusive boundStore "t" "hi.jpg" (pathJoin "t" "hi.jpg") ∅ 20 250
      (mkRec 1 (some "hi.jpg") none) (imgMean 250) 250 (by decide) (by decide) (by decide)
      (by decide) (by decide)).1 (by norm_num),
   (brightness_bounds_inclusive boundStore "t" "lo2.jpg" (pathJoin "t" "lo2.jpg") ∅ 20 250
      (mkRec 2 (some "lo2.jpg") none) (imgMean 19) 19 (by decide) (by decide) (by decide)
      (by decide) (by decide)).2 (by norm_num),
   (brightness_bounds_inclusive boundStore "t" "hi2.jpg" (pathJoin "t" "hi2.jpg") ∅ 20 250
      (mkRec 3 (some "hi2.jpg") none) (imgMean 251) 251 (by decide) (by decide) (by decide)
      (by decide) (by decide)).2 (by norm_num)⟩

/-- C8: each of the three structural failures aborts with the corresponding
error before any check runs, and the disk is left untouched. -/
theorem structural_failures_abort (st : Store) (tub : String) (remove : Bool)
    (maxB minB maxZ : ℤ) :
    (st.rootExists = false →
      clean_tub_data st tub remove maxB minB maxZ = .error .storeNotFound ∧
      runDisk st tub remove maxB minB maxZ = st) ∧
    (st.rootExists = true → st.catalogs = [] →
      clean_tub_data st tub remove maxB minB maxZ = .error .catalogMissing ∧
      runDisk st tub remove maxB minB maxZ = st) ∧
    (st.rootExists = true → st.catalogs ≠ [] → st.manifest = none →
      clean_tub_data st tub remove maxB minB maxZ = .error .manifestMissing ∧
      runDisk st tub remove maxB minB maxZ = st) := by
  refine ⟨fun h1 => ?_, fun h1 h2 => ?_, fun h1 h2 h3 => ?_⟩
  · constructor
    · simp [clean_tub_data, h1]
    · simp [runDisk, clean_tub_data, h1]
  · constructor
    · simp [clean_tub_data, h1, h2]
    · simp [runDisk, clean_tub_data, h1, h2]
  · constructor
    · simp [clean_tub_data, h1, h2, h3]
    · simp [runDisk, clean_tub_data, h1, h2, h3]

/-- Witness for C8 at a store with no root. -/
theorem structural_failures_abort_witness :
    clean_tub_data deadStore "t" true 250 20 10 = .error .storeNotFound ∧
    runDisk deadStore "t" true 250 20 10 = deadStore :=
  (structural_failures_abort deadStore "t" true 250 20 10).1 rfl

/-- C10: a run that finds no problems writes nothing, whatever the flags:
the resulting store (and in particular the manifest) is the input store. -/
theorem no_findings_no_write {st : Store} {tub : String} {remove : Bool}
    {maxB minB maxZ : ℤ} {ps : List Problem} {st2 : Store}
    (h : clean_tub_data st tub remove maxB minB maxZ = .ok (ps, st2)) (hps : ps = []) :
    st2 = st ∧ st2.manifest = st.manifest := by
  suffices hs : st2 = st by exact ⟨hs, by rw [hs]⟩
  simp only [clean_tub_data] at h
  split at h
  · cases h
  · split at h
    · cases h
    · split at h
      · cases h
      · split at h
        · cases h
        · split at h
          · injection h with h2
            injection h2 with ha hb
            exact hb.symm
          next hne =>
            split at h
            · split at h
              · cases h
              · injection h with h2
                injection h2 with ha hb
                exact absurd (ha.trans hps) hne
            · injection h with h2
              injection h2 with ha hb
              exact hb.symm

/-- Witness for C10: a clean store with `remove` on is returned unchanged. -/
theorem no_findings_no_write_witness :
    clean_tub_data cleanStore "t" true 250 20 10 = .ok ([], cleanStore) ∧
    cleanStore = cleanStore ∧ cleanStore.manifest = cleanStore.manifest :=
  have h0 : clean_tub_data cleanStore "t" true 250 20 10 = .ok ([], cleanStore) := by rfl
  ⟨h0, (no_findings_no_write h0 rfl).imp id id⟩

/-- C3 (amended): an index receives a zero-angle-run problem exactly when it
sits at a position of a long-enough run with both side means at most 0.1,
its record is not deleted, its image reference is present and resolves, and
the frame pass produced no entry for it. -/
theorem zero_run_flagging (st : Store) (tub : String) (D : Finset ℤ)
    (minB maxB maxZ : ℤ) (j : ℤ) :
    (∃ pr ∈ problemsFor st tub D minB maxB maxZ, pr.1 = some j ∧ pr.2.2 = Reason.zeroRun)
    ↔ ∃ seq ∈ get_zero_angle_sequences (loadRecords st),
        maxZ < (seq.length : ℤ) ∧
        preAvg (loadRecords st) (seq.headD 0) ≤ mkRat 1 10 ∧
        postAvg (loadRecords st) (seq.getLastD 0) ≤ mkRat 1 10 ∧
        ∃ pos ∈ seq, ∃ r, (loadRecords st).get? pos = some r ∧ r.idx = some j ∧
          j ∉ D ∧
          (∃ name p f, imageNameOf r = some name ∧ get_image_path st tub name = some (p, f)) ∧
          ∀ pr ∈ frameProblems st tub D minB maxB, pr.1 ≠ some j := by
  constructor
  · rintro ⟨pr, hpr, hj, hz⟩
    rcases problemsFor_mem hpr with hx | hx
    · obtain ⟨r, _, hc⟩ := List.mem_filterMap.mp hx
      exact absurd hz (frameCheckOne_reason_not_zeroRun hc)
    · obtain ⟨seq, hseq, hlen, hpre, hpost, pos, hpos, r, name, p, f,
        hr, hmem, hn, hp, heq, hbase⟩ := hx
      have hidx : r.idx = some j := by rw [heq] at hj; exact hj
      refine ⟨seq, hseq, hlen, hpre, hpost, pos, hpos, r, hr, hidx, ?_,
        ⟨name, p, f, hn, hp⟩, ?_⟩
      · intro hjD
        rw [hidx] at hmem
        simp [memOpt] at hmem
        exact hmem hjD
      · intro q hq
        have := hbase q hq
        rw [hidx] at this
        exact this
  · rintro ⟨seq, hseq, hlen, hpre, hpost, pos, hpos, r, hr, hidx, hjD,
      ⟨name, p, f, hn, hp⟩, hframe⟩
    have hmem : memOpt r.idx D = false := by
      rw [hidx]
      simp [memOpt, hjD]
    obtain ⟨e, he, he1⟩ :=
      foldl_seq_complete (frameProblems st tub D minB maxB)
        hseq hlen hpre hpost hpos hr hmem hn hp
    have he2 : e ∈ problemsFor st tub D minB maxB maxZ := he
    have hej : e.1 = some j := by rw [he1, hidx]
    rcases problemsFor_mem he2 with hx | hx
    · exact absurd hej (hframe e hx)
    · obtain ⟨_, _, _, _, _, _, _, r2, _, p2, _, _, _, _, _, heq2, _⟩ := hx
      refine ⟨e, he2, hej, ?_⟩
      rw [heq2]

/-- C3 counterexample: the zero-angle run `[0, 1, 2]` qualifies (length 3 over
threshold 2, both side means 0), position 1 is neither deleted nor in the
problem set, yet only positions 0 and 2 are flagged: the record at position 1
has no image reference, a guard the claim does not mention. -/
theorem zero_run_flagging_counterexample :
    get_zero_angle_sequences (loadRecords cexStore3) = [[0, 1, 2]] ∧
    (2 : ℤ) < (([0, 1, 2] : List ℕ).length : ℤ) ∧
    preAvg (loadRecords cexStore3) 0 = 0 ∧
    postAvg (loadRecords cexStore3) 2 = 0 ∧
    (loadRecords cexStore3).get? 1 = some (mkRec 1 none (some (mkRat 1 50))) ∧
    frameProblems cexStore3 "t" ∅ 20 250 = [] ∧
    problemsFor cexStore3 "t" ∅ 20 250 2 =
      [(some 0, pathJoin "t" "a.jpg", Reason.zeroRun),
       (some 2, pathJoin "t" "c.jpg", Reason.zeroRun)] ∧
    ∀ pr ∈ problemsFor cexStore3 "t" ∅ 20 250 2, pr.1 ≠ some 1 := by
  refine ⟨by rfl, by decide, by decide, by decide, by rfl, by rfl, by rfl, ?_⟩
  intro pr hpr
  have hps : problemsFor cexStore3 "t" ∅ 20 250 2 =
      [(some 0, pathJoin "t" "a.jpg", Reason.zeroRun),
       (some 2, pathJoin "t" "c.jpg", Reason.zeroRun)] := by rfl
  rw [hps] at hpr
  simp only [List.mem_cons, List.not_mem_nil, or_false] at hpr
  rcases hpr with h | h
  · rw [h]; decide
  · rw [h]; decide

/-- C4 counterexample: with the two catalog segments enumerated in reverse
index order, the loaded record list is their concatenation in enumeration
order and is not sorted by index. -/
theorem load_order_counterexample :
    loadRecords cexStore4 = [mkRec 2 none none, mkRec 1 none none] ∧
    idxList (loadRecords cexStore4) = [2, 1] ∧
    ¬ recordsSortedByIndex (loadRecords cexStore4) := by
  refine ⟨by rfl, by rfl, ?_⟩
  intro h
  have h2 : List.Sorted (fun a b => a ≤ b) ([2, 1] : List ℤ) := h
  rcases h2 with _ | ⟨hrel, _⟩
  have := hrel 1 (by simp)
  omega

/-- C4 (amended): the loaded record list is the concatenation of the parsed
segments in enumeration order; it is sorted by index whenever each segment is
sorted and the segments are pairwise ordered in enumeration order. -/
theorem load_sorted_of_enumeration_sorted (st : Store)
    (h1 : ∀ seg ∈ st.catalogs, List.Sorted (· ≤ ·) (idxList (seg.filterMap id)))
    (h2 : List.Pairwise
      (fun s1 s2 => ∀ i ∈ idxList (s1.filterMap id), ∀ j ∈ idxList (s2.filterMap id), i ≤ j)
      st.catalogs) :
    recordsSortedByIndex (loadRecords st) := by
  unfold recordsSortedByIndex loadRecords idxList
  rw [List.filterMap_flatten]
  rw [List.map_map]
  unfold List.Sorted
  rw [List.pairwise_flatten]
  constructor
  · intro l hl
    obtain ⟨seg, hseg, hmap⟩ := List.mem_map.mp hl
    rw [← hmap]
    exact h1 seg hseg
  · rw [List.pairwise_map]
    exact h2

/-- Witness for the amended C4 at a store whose enumeration respects index
order. -/
def wStoreC4 : Store :=
  { rootExists := true
    catalogs := [[some (mkRec 1 none none)], [some (mkRec 2 none none)]]
    manifest := some mfEmpty
    rootImgs := []
    subImgs := [] }

theorem load_sorted_of_enumeration_sorted_witness :
    recordsSortedByIndex (loadRecords wStoreC4) :=
  load_sorted_of_enumeration_sorted wStoreC4 (by decide) (by decide)

/-- C5 (amended): a structurally valid image whose brightness decode fails is
reported as a brightness problem carrying the value 0, not as an invalid
image. -/
theorem brightness_decode_failure_reason (st : Store) (tub name p : String)
    (D : Finset ℤ) (minB maxB : ℤ) (r : Record) (f : ImgFile)
    (hD : memOpt r.idx D = false) (hn : imageNameOf r = some name)
    (hg : get_image_path st tub name = some (p, f))
    (hv : f.pilValid = true) (hm : f.cvMean = none) :
    frameCheckOne st tub D minB maxB r = some (r.idx, p, Reason.brightness 0) := by
  simp [frameCheckOne, hD, hn, hg, is_valid_image, hv, check_brightness, hm]

/-- Witness for the amended C5. -/
theorem brightness_decode_failure_reason_witness :
    frameCheckOne cexStore5 "t" ∅ 20 250 (mkRec 0 (some "a.jpg") none) =
      some (some 0, pathJoin "t" "a.jpg", Reason.brightness 0) :=
  brightness_decode_failure_reason cexStore5 "t" "a.jpg" (pathJoin "t" "a.jpg")
    ∅ 20 250 (mkRec 0 (some "a.jpg") none) imgBadDecode
    (by decide) (by decide) (by decide) (by decide) (by decide)

/-- C5 counterexample: on a store whose image verifies structurally but fails
the brightness decode, the emitted problem is a brightness entry with value
0, not an invalid-image entry. -/
theorem brightness_decode_failure_counterexample :
    problemsFor cexStore5 "t" ∅ 20 250 10 =
      [(some 0, pathJoin "t" "a.jpg", Reason.brightness 0)] ∧
    Reason.brightness 0 ≠ Reason.invalidImage := by
  refine ⟨by rfl, by decide⟩

/-- C9 counterexample: a run that finds a problem exits with the same status
0 as a clean run. -/
theorem exit_status_counterexample :
    clean_tub_data cexStore9p "t" false 250 20 10 =
      .ok ([(some 0, pathJoin "t" "missing.jpg", Reason.missingFile)], cexStore9p) ∧
    mainExit cexStore9p "t" false 250 20 10 = 0 ∧
    clean_tub_data cleanStore "t" false 250 20 10 = .ok ([], cleanStore) ∧
    mainExit cleanStore "t" false 250 20 10 = 0 := by
  exact ⟨by rfl, by rfl, by rfl, by rfl⟩

/-- C9 (amended): the exit status is 0 whenever no exception escapes — also
when problems were found or a structural failure was printed — and 1 exactly
on the two uncaught exceptions. -/
theorem exit_status_zero_unless_crash (st : Store) (tub : String) (remove : Bool)
    (maxB minB maxZ : ℤ) :
    mainExit st tub remove maxB minB maxZ = 0 ↔
      clean_tub_data st tub remove maxB minB maxZ ≠ .error .loadCrash ∧
      clean_tub_data st tub remove maxB minB maxZ ≠ .error .commitCrash := by
  rcases hc : clean_tub_data st tub remove maxB minB maxZ with e | pr
  · cases e <;> simp [mainExit, hc]
  · simp [mainExit, hc]

/-! ### Text-substitution lemmas

The behaviour of the modelled `re.sub` is pinned down by three facts: it is
the identity on text without an occurrence of the literal head of the
pattern, it walks over a region in which no occurrence starts, and at an
occurrence followed by a clean body and a closing bracket it substitutes and
continues after the bracket. -/

theorem isPrefixOfIff {l1 l2 : List Char} : l1.isPrefixOf l2 = true ↔ l1 <+: l2 :=
  List.isPrefixOf_iff_prefix

theorem isPrefixOf_mono {p x y : List Char} (h : p.isPrefixOf x = true) :
    p.isPrefixOf (x ++ y) = true := by
  rw [isPrefixOfIff] at h ⊢
  exact h.trans (List.prefix_append x y)

theorem isPrefixOf_append_right {p x y : List Char} (h : p.length ≤ x.length) :
    p.isPrefixOf (x ++ y) = p.isPrefixOf x := by
  by_cases hp : p.isPrefixOf x = true
  · rw [hp, isPrefixOf_mono hp]
  · simp only [Bool.not_eq_true] at hp
    rw [hp]
    by_contra hcon
    simp only [Bool.not_eq_false] at hcon
    rw [isPrefixOfIff, List.prefix_iff_eq_take, List.take_append_of_le_length h] at hcon
    have h2 : p <+: x := by
      rw [List.prefix_iff_eq_take]
      exact hcon
    rw [← isPrefixOfIff] at h2
    rw [h2] at hp
    cases hp

theorem containsSub_false_head {pat c : _} {rest : List Char}
    (h : containsSub pat (c :: rest) = false) :
    pat.isPrefixOf (c :: rest) = false ∧ containsSub pat rest = false := by
  unfold containsSub at h
  exact ⟨by rcases Bool.or_eq_false_iff.mp h with ⟨h1, h2⟩; exact h1,
    by rcases Bool.or_eq_false_iff.mp h with ⟨h1, h2⟩; exact h2⟩

/-- S1: no occurrence of the literal head, no substitution. -/
theorem reSubDI_id {repl : List Char} :
    ∀ {l : List Char}, containsSub litDI l = false → reSubDI repl l = l := by
  intro l
  induction l with
  | nil => intro _; rw [reSubDI]
  | cons c rest ih =>
    intro h
    obtain ⟨h1, h2⟩ := containsSub_false_head h
    rw [reSubDI, h1]
    simp only [Bool.false_eq_true, if_false, cond_false]
    rw [ih h2]

/-- S2: capture of a clean body up to the closing bracket. -/
theorem captureToRB_clean {b z : List Char}
    (hb : ∀ c ∈ b, c ≠ ']' ∧ c ≠ '\n') :
    captureToRB (b ++ ']' :: z) = some (b, z) := by
  induction b with
  | nil => rw [List.nil_append, captureToRB]; simp
  | cons c b2 ih =>
    have hc := hb c (by simp)
    rw [List.cons_append, captureToRB]
    simp only [hc.1, hc.2, if_false]
    rw [ih (fun x hx => hb x (by simp [hx]))]
    simp

theorem litDI_length : litDI.length = 20 := by decide

/-- S3: substitution fires at an occurrence with a clean body. -/
theorem reSubDI_match {repl b z : List Char}
    (hb : ∀ c ∈ b, c ≠ ']' ∧ c ≠ '\n') :
    reSubDI repl (litDI ++ b ++ ']' :: z) = repl ++ reSubDI repl z := by
  have hne : litDI ++ b ++ ']' :: z ≠ [] := by simp [litDI]
  obtain ⟨c, rest, hcr⟩ := List.exists_cons_of_ne_nil hne
  rw [hcr, reSubDI]
  have hpre : litDI.isPrefixOf (c :: rest) = true := by
    rw [← hcr, List.append_assoc, isPrefixOfIff]
    exact List.prefix_append litDI (b ++ ']' :: z)
  rw [hpre]
  have hdrop : (c :: rest).drop litDI.length = b ++ ']' :: z := by
    rw [← hcr, List.append_assoc, List.drop_left]
  rw [hdrop, captureToRB_clean hb]
  simp

/-- S4: substitution walks over a region in which no occurrence starts. -/
theorem reSubDI_skip {repl : List Char} :
    ∀ {a x : List Char},
      (∀ i < a.length, litDI.isPrefixOf ((a ++ x).drop i) = false) →
      reSubDI repl (a ++ x) = a ++ reSubDI repl x := by
  intro a
  induction a with
  | nil => intro x _; rw [List.nil_append, List.nil_append]
  | cons c a2 ih =>
    intro x h
    have h0 : litDI.isPrefixOf (c :: (a2 ++ x)) = false := by
      have := h 0 (by simp)
      simpa using this
    rw [List.cons_append, reSubDI, h0]
    simp only [Bool.false_eq_true, if_false]
    rw [ih (fun i hi => by have := h (i + 1) (by simpa using Nat.succ_lt_succ hi); simpa using this)]
    rfl

/-- Transfer: whether an occurrence starts inside `u` does not depend on what
follows the literal that comes after `u`. -/
theorem noLit_transfer {u y : List Char}
    (h : ∀ i < u.length, litDI.isPrefixOf ((u ++ litDI).drop i) = false) :
    ∀ i < u.length, litDI.isPrefixOf ((u ++ (litDI ++ y)).drop i) = false := by
  intro i hi
  have hd1 : (u ++ litDI).drop i = u.drop i ++ litDI :=
    List.drop_append_of_le_length (Nat.le_of_lt hi)
  have hd2 : (u ++ (litDI ++ y)).drop i = u.drop i ++ (litDI ++ y) :=
    List.drop_append_of_le_length (Nat.le_of_lt hi)
  have hlen : litDI.length ≤ (u.drop i ++ litDI).length := by
    simp
  have := h i hi
  rw [hd1] at this
  rw [hd2, ← List.append_assoc, isPrefixOf_append_right hlen, this]

/-- S5: the canonical one-field-per-occurrence substitution shape. -/
theorem reSubDI_field {repl u b v : List Char}
    (hu : ∀ i < u.length, litDI.isPrefixOf ((u ++ litDI).drop i) = false)
    (hb : ∀ c ∈ b, c ≠ ']' ∧ c ≠ '\n')
    (hv : containsSub litDI v = false) :
    reSubDI repl (u ++ litDI ++ b ++ ']' :: v) = u ++ repl ++ v := by
  have hno : ∀ i < u.length,
      litDI.isPrefixOf ((u ++ (litDI ++ (b ++ ']' :: v))).drop i) = false :=
    fun i hi => @noLit_transfer u (b ++ ']' :: v) hu i hi
  have key : u ++ litDI ++ b ++ ']' :: v = u ++ (litDI ++ (b ++ ']' :: v)) := by
    simp [List.append_assoc]
  have key2 : litDI ++ (b ++ ']' :: v) = litDI ++ b ++ ']' :: v := by
    simp [List.append_assoc]
  rw [key, reSubDI_skip hno, key2, reSubDI_match hb, reSubDI_id hv, List.append_assoc]

/-- C2 counterexample: a manifest whose field is written without the space
the regexes expect.  Load sees an empty deletion index, commit rewrites
nothing, and the post-commit load misses the newly flagged index 1. -/
theorem commit_load_counterexample :
    loadDeleted cexManifest2 = some (∅ : Finset ℤ) ∧
    commitManifest cexManifest2 [1] = some cexManifest2 ∧
    ((∅ : Finset ℤ) ∪ ([1] : List ℤ).toFinset) ≠ (∅ : Finset ℤ) := by
  refine ⟨by decide, ?_, by decide⟩
  have hload : loadDeleted cexManifest2 = some (∅ : Finset ℤ) := by decide
  simp only [commitManifest, hload]
  rw [reSubDI_id (by decide)]


theorem digitCh_spec (d : ℕ) (h : d < 10) :
    isDigitCh (digitCh d) = true ∧ digitVal (digitCh d) = d := by
  interval_cases d <;> exact ⟨by decide, by decide⟩

theorem isDigitCh_not_special {c : Char} (h : isDigitCh c = true) :
    c ≠ '-' ∧ c ≠ '+' ∧ c ≠ ']' ∧ c ≠ '\n' ∧ c ≠ ',' ∧ c ≠ '"' ∧ isSpaceCh c = false := by
  refine ⟨?_, ?_, ?_, ?_, ?_, ?_, ?_⟩
  · intro hx; subst hx; exact absurd h (by decide)
  · intro hx; subst hx; exact absurd h (by decide)
  · intro hx; subst hx; exact absurd h (by decide)
  · intro hx; subst hx; exact absurd h (by decide)
  · intro hx; subst hx; exact absurd h (by decide)
  · intro hx; subst hx; exact absurd h (by decide)
  · unfold isSpaceCh
    simp only [Bool.or_eq_false_iff, decide_eq_false_iff_not, and_assoc]
    refine ⟨fun hx => ?_, fun hx => ?_, fun hx => ?_, fun hx => ?_⟩ <;>
      (subst hx; exact absurd h (by decide))

theorem natCharsAux_append (n : ℕ) :
    ∀ acc, natCharsAux n acc = natCharsAux n [] ++ acc := by
  induction n using Nat.strong_induction_on with
  | _ n ih =>
    intro acc
    by_cases h : n < 10
    · rw [natCharsAux]
      conv_rhs => rw [natCharsAux]
      simp [h]
    · have hlt : n / 10 < n := Nat.div_lt_self (by omega) (by omega)
      rw [natCharsAux]
      simp only [h, dite_false]
      rw [ih (n / 10) hlt (digitCh (n % 10) :: acc)]
      conv_rhs => rw [natCharsAux]
      simp only [h, dite_false]
      rw [ih (n / 10) hlt [digitCh (n % 10)]]
      simp

theorem natChars_ne_nil (n : ℕ) : natChars n ≠ [] := by
  unfold natChars
  by_cases h : n < 10
  · rw [natCharsAux]
    simp [h]
  · have hlt : n / 10 < n := Nat.div_lt_self (by omega) (by omega)
    rw [natCharsAux]
    simp only [h, dite_false]
    rw [natCharsAux_append]
    simp

theorem natChars_digits (n : ℕ) : ∀ c ∈ natChars n, isDigitCh c = true := by
  unfold natChars
  suffices hs : ∀ m acc, (∀ c ∈ acc, isDigitCh c = true) →
      ∀ c ∈ natCharsAux m acc, isDigitCh c = true by
    exact hs n [] (by simp)
  intro m
  induction m using Nat.strong_induction_on with
  | _ m ih =>
    intro acc hacc c hc
    by_cases h : m < 10
    · rw [natCharsAux] at hc
      simp only [h, dite_true] at hc
      rcases List.mem_cons.mp hc with he | he
      · subst he; exact (digitCh_spec m h).1
      · exact hacc c he
    · have hlt : m / 10 < m := Nat.div_lt_self (by omega) (by omega)
      rw [natCharsAux] at hc
      simp only [h, dite_false] at hc
      refine ih (m / 10) hlt (digitCh (m % 10) :: acc) ?_ c hc
      intro x hx
      rcases List.mem_cons.mp hx with he | he
      · subst he; exact (digitCh_spec (m % 10) (Nat.mod_lt m (by omega))).1
      · exact hacc x he

/-- Value of a digit string continued from an already-read value. -/
def valFold (v : ℕ) (l : List Char) : ℕ :=
  l.foldl (fun a c => 10 * a + digitVal c) v

theorem valFold_natCharsAux (n : ℕ) :
    ∀ acc v, valFold v (natCharsAux n acc) =
      valFold (v * 10 ^ (natCharsAux n []).length + n) acc := by
  induction n using Nat.strong_induction_on with
  | _ n ih =>
    intro acc v
    by_cases h : n < 10
    · have hxx : natCharsAux n [] = [digitCh n] := by
        rw [natCharsAux]
        simp [h]
      rw [natCharsAux]
      simp only [h, dite_true]
      rw [hxx]
      unfold valFold
      simp only [List.foldl_cons, List.length_cons, List.length_nil, pow_one]
      rw [(digitCh_spec n h).2, Nat.mul_comm 10 v]
      norm_num
    · have hlt : n / 10 < n := Nat.div_lt_self (by omega) (by omega)
      rw [natCharsAux]
      simp only [h, dite_false]
      rw [ih (n / 10) hlt (digitCh (n % 10) :: acc) v]
      have hstep : valFold (v * 10 ^ (natCharsAux (n / 10) []).length + n / 10)
          (digitCh (n % 10) :: acc) =
          valFold (10 * (v * 10 ^ (natCharsAux (n / 10) []).length + n / 10) +
            (n % 10)) acc := by
        unfold valFold
        rw [List.foldl_cons, (digitCh_spec (n % 10) (Nat.mod_lt n (by omega))).2]
      rw [hstep]
      have hlen : (natCharsAux n []).length = (natCharsAux (n / 10) []).length + 1 := by
        conv_lhs => rw [natCharsAux]
        simp only [h, dite_false]
        rw [natCharsAux_append]
        simp
      rw [hlen]
      have harith : 10 * (v * 10 ^ (natCharsAux (n / 10) []).length + n / 10) + n % 10 =
          v * 10 ^ ((natCharsAux (n / 10) []).length + 1) + n := by
        have hmod := Nat.div_add_mod n 10
        ring_nf
        omega
      rw [harith]

theorem parseDigits_natChars (n : ℕ) : parseDigits (natChars n) = some n := by
  unfold parseDigits
  rw [if_neg (natChars_ne_nil n)]
  rw [if_pos (by rw [List.all_eq_true]; intro c hc; exact natChars_digits n c hc)]
  have := valFold_natCharsAux n [] 0
  unfold natChars
  unfold valFold at this
  rw [this]
  simp

theorem dropWhile_eq_self_of_head {p : Char → Bool} {l : List Char}
    (h : ∀ c, l.head? = some c → p c = false) : l.dropWhile p = l := by
  cases l with
  | nil => rfl
  | cons c t =>
    rw [List.dropWhile_cons, h c rfl]
    simp

theorem stripChars_eq_self {l : List Char}
    (h1 : ∀ c, l.head? = some c → isSpaceCh c = false)
    (h2 : ∀ c, l.getLast? = some c → isSpaceCh c = false) :
    stripChars l = l := by
  unfold stripChars
  rw [dropWhile_eq_self_of_head h1]
  rw [dropWhile_eq_self_of_head (fun c hc => h2 c (by rwa [← List.head?_reverse]))]
  exact List.reverse_reverse l

theorem stripChars_space_pre {pre l : List Char}
    (h : ∀ c ∈ pre, isSpaceCh c = true) :
    stripChars (pre ++ l) = stripChars l := by
  unfold stripChars
  rw [List.dropWhile_append]
  have hnil : pre.dropWhile isSpaceCh = [] := by
    rw [List.dropWhile_eq_nil_iff]
    exact fun x hx => by rw [h x hx]
  rw [hnil]
  simp

theorem parsePyInt_space_pre {pre l : List Char}
    (h : ∀ c ∈ pre, isSpaceCh c = true) :
    parsePyInt (pre ++ l) = parsePyInt l := by
  unfold parsePyInt
  rw [stripChars_space_pre h]

theorem intChars_ne_nil (i : ℤ) : intChars i ≠ [] := by
  unfold intChars
  split
  · simp
  · exact natChars_ne_nil _

theorem intChars_mem {i : ℤ} {c : Char} (h : c ∈ intChars i) :
    c = '-' ∨ isDigitCh c = true := by
  unfold intChars at h
  split at h
  · rcases List.mem_cons.mp h with he | he
    · exact Or.inl he
    · exact Or.inr (natChars_digits _ c he)
  · exact Or.inr (natChars_digits _ c h)

theorem intChars_head {i : ℤ} {c : Char} (h : (intChars i).head? = some c) :
    c = '-' ∨ isDigitCh c = true :=
  intChars_mem (List.mem_of_mem_head? h)

theorem natChars_getLast {n : ℕ} {c : Char} (h : (natChars n).getLast? = some c) :
    isDigitCh c = true :=
  natChars_digits n c (List.mem_of_mem_getLast? h)

theorem intChars_getLast {i : ℤ} {c : Char} (h : (intChars i).getLast? = some c) :
    isDigitCh c = true := by
  unfold intChars at h
  split at h
  · obtain ⟨a, t, hat⟩ := List.exists_cons_of_ne_nil (natChars_ne_nil i.natAbs)
    rw [hat, List.getLast?_cons_cons] at h
    exact natChars_getLast (by rw [hat]; exact h)
  · exact natChars_getLast h

theorem dumpElem_clean {o : Option ℤ} {c : Char} (h : c ∈ dumpElem o) :
    c ≠ ']' ∧ c ≠ '\n' := by
  rcases o with _ | i
  · have hall : ∀ x ∈ dumpElem (none : Option ℤ), x ≠ ']' ∧ x ≠ '\n' := by decide
    exact hall c h
  · rcases intChars_mem h with he | he
    · subst he; exact ⟨by decide, by decide⟩
    · have := isDigitCh_not_special he
      exact ⟨this.2.2.1, this.2.2.2.1⟩

theorem dumpsBody_nil : dumpsBody [] = [] := rfl

theorem dumpsBody_single (o : Option ℤ) : dumpsBody [o] = dumpElem o := rfl

theorem dumpsBody_cons_cons (a b : Option ℤ) (l : List (Option ℤ)) :
    dumpsBody (a :: b :: l) = dumpElem a ++ ',' :: ' ' :: dumpsBody (b :: l) := by
  simp only [dumpsBody, List.map_cons, intercalateComma, List.append_assoc]
  rfl

theorem dumpsBody_clean {xs : List (Option ℤ)} {c : Char} (h : c ∈ dumpsBody xs) :
    c ≠ ']' ∧ c ≠ '\n' := by
  induction xs with
  | nil => rw [dumpsBody_nil] at h; cases h
  | cons a l ih =>
    cases l with
    | nil =>
      rw [dumpsBody_single] at h
      exact dumpElem_clean h
    | cons b r =>
      rw [dumpsBody_cons_cons] at h
      rcases List.mem_append.mp h with he | he
      · exact dumpElem_clean he
      · rcases List.mem_cons.mp he with he2 | he2
        · subst he2; exact ⟨by decide, by decide⟩
        · rcases List.mem_cons.mp he2 with he3 | he3
          · subst he3; exact ⟨by decide, by decide⟩
          · exact ih he3

theorem replOf_eq (xs : List (Option ℤ)) :
    replOf xs = litDI ++ (dumpsBody xs ++ [']']) := by
  unfold replOf dumpsList
  rw [List.append_cons]
  congr 1

theorem replOf_no_nl {xs : List (Option ℤ)} {c : Char} (h : c ∈ replOf xs) :
    c ≠ '\n' := by
  rw [replOf_eq] at h
  rcases List.mem_append.mp h with he | he
  · have hall : ∀ x ∈ litDI, x ≠ '\n' := by decide
    exact hall c he
  · rcases List.mem_append.mp he with he2 | he2
    · exact (dumpsBody_clean he2).2
    · rcases List.mem_cons.mp he2 with he3 | he3
      · subst he3; decide
      · cases he3

theorem splitOnChar_no_sep {sep : Char} {p : List Char} (h : ∀ c ∈ p, c ≠ sep) :
    splitOnChar sep p = [p] := by
  induction p with
  | nil => rfl
  | cons c t ih =>
    rw [splitOnChar]
    rw [if_neg (h c (by simp))]
    rw [ih (fun x hx => h x (by simp [hx]))]

theorem splitOnChar_append_sep {sep : Char} {p q : List Char} (h : ∀ c ∈ p, c ≠ sep) :
    splitOnChar sep (p ++ sep :: q) = p :: splitOnChar sep q := by
  induction p with
  | nil =>
    rw [List.nil_append, splitOnChar, if_pos rfl]
  | cons c t ih =>
    rw [List.cons_append, splitOnChar, if_neg (h c (by simp))]
    rw [ih (fun x hx => h x (by simp [hx]))]

theorem intChars_no_comma {i : ℤ} {c : Char} (h : c ∈ intChars i) : c ≠ ',' := by
  rcases intChars_mem h with he | he
  · subst he; decide
  · exact (isDigitCh_not_special he).2.2.2.2.1

theorem parsePyInt_intChars (i : ℤ) : parsePyInt (intChars i) = some i := by
  have hstrip : stripChars (intChars i) = intChars i := by
    apply stripChars_eq_self
    · intro c hc
      rcases intChars_head hc with he | he
      · subst he; decide
      · exact (isDigitCh_not_special he).2.2.2.2.2.2
    · intro c hc
      exact (isDigitCh_not_special (intChars_getLast hc)).2.2.2.2.2.2
  by_cases hneg : i < 0
  · have hic : intChars i = '-' :: natChars i.natAbs := by
      unfold intChars
      rw [if_pos hneg]
    unfold parsePyInt
    rw [hstrip, hic]
    simp only [List.head?_cons, List.tail_cons]
    rw [if_pos trivial, parseDigits_natChars]
    simp
    rw [abs_of_neg hneg]
    exact neg_neg i
  · have hic : intChars i = natChars i.toNat := by
      unfold intChars
      rw [if_neg hneg]
    obtain ⟨a, t, hat⟩ := List.exists_cons_of_ne_nil (natChars_ne_nil i.toNat)
    have ha : isDigitCh a = true := natChars_digits i.toNat a (by rw [hat]; simp)
    unfold parsePyInt
    rw [hstrip, hic, hat]
    simp only [List.head?_cons]
    have h1 : ¬(some a = some '-') := by
      intro hx
      injection hx with hx
      exact (isDigitCh_not_special ha).1 hx
    have h2 : ¬(some a = some '+') := by
      intro hx
      injection hx with hx
      exact (isDigitCh_not_special ha).2.1 hx
    rw [if_neg h1, if_neg h2, ← hat, parseDigits_natChars]
    have hval : (i.toNat : ℤ) = i := by omega
    simp [hval]

theorem dumpsBody_map_cons_cons (x y : ℤ) (r : List ℤ) :
    dumpsBody ((x :: y :: r).map some) =
      intChars x ++ ',' :: ' ' :: dumpsBody ((y :: r).map some) := by
  rw [List.map_cons, List.map_cons, dumpsBody_cons_cons, ← List.map_cons]
  rfl

theorem parseAll_splitParse : ∀ (xs : List ℤ), xs ≠ [] → ∀ pre : List Char,
    (∀ c ∈ pre, isSpaceCh c = true ∧ c ≠ ',') →
    parseAll (splitOnChar ',' (pre ++ dumpsBody (xs.map some))) = some xs := by
  intro xs
  induction xs with
  | nil => intro h; cases h rfl
  | cons x r ih =>
    intro _ pre hpre
    cases r with
    | nil =>
      rw [List.map_cons, List.map_nil, dumpsBody_single]
      have hns : ∀ c ∈ pre ++ dumpElem (some x), c ≠ ',' := by
        intro c hc
        rcases List.mem_append.mp hc with he | he
        · exact (hpre c he).2
        · exact intChars_no_comma he
      rw [splitOnChar_no_sep hns]
      have hp : parsePyInt (pre ++ dumpElem (some x)) = some x := by
        rw [parsePyInt_space_pre (fun c hc => (hpre c hc).1)]
        exact parsePyInt_intChars x
      rw [parseAll, hp, parseAll]
    | cons y r2 =>
      rw [dumpsBody_map_cons_cons]
      have hassoc : pre ++ (intChars x ++ ',' :: ' ' :: dumpsBody ((y :: r2).map some)) =
          (pre ++ intChars x) ++ ',' :: (' ' :: dumpsBody ((y :: r2).map some)) := by
        simp
      rw [hassoc]
      have hns : ∀ c ∈ pre ++ intChars x, c ≠ ',' := by
        intro c hc
        rcases List.mem_append.mp hc with he | he
        · exact (hpre c he).2
        · exact intChars_no_comma he
      rw [splitOnChar_append_sep hns]
      have hp : parsePyInt (pre ++ intChars x) = some x := by
        rw [parsePyInt_space_pre (fun c hc => (hpre c hc).1)]
        exact parsePyInt_intChars x
      have hrest := ih (by simp) [' ']
        (by intro c hc; simp at hc; subst hc; exact ⟨by decide, by decide⟩)
      rw [List.cons_append, List.nil_append] at hrest
      rw [parseAll, hp, hrest]

theorem dumpsBody_ne_nil (x : Option ℤ) (l : List (Option ℤ)) (hx : dumpElem x ≠ []) :
    dumpsBody (x :: l) ≠ [] := by
  cases l with
  | nil => rw [dumpsBody_single]; exact hx
  | cons b r =>
    rw [dumpsBody_cons_cons]
    intro hcon
    rcases List.append_eq_nil.mp hcon with ⟨_, h2⟩
    cases h2

theorem dumpsBody_getLast_digit : ∀ (r : List ℤ) (x : ℤ) {c : Char},
    (dumpsBody ((x :: r).map some)).getLast? = some c → isDigitCh c = true := by
  intro r
  induction r with
  | nil =>
    intro x c h
    rw [List.map_cons, List.map_nil, dumpsBody_single] at h
    exact intChars_getLast h
  | cons y r2 ih =>
    intro x c h
    rw [dumpsBody_map_cons_cons] at h
    have hb : dumpsBody ((y :: r2).map some) ≠ [] := by
      rw [List.map_cons]
      exact dumpsBody_ne_nil (some y) _ (intChars_ne_nil y)
    rw [List.getLast?_append_of_ne_nil _ (by simp)] at h
    have h2 : (dumpsBody ((y :: r2).map some)).getLast? = some c := by
      obtain ⟨a, t, hat⟩ := List.exists_cons_of_ne_nil hb
      rw [hat]
      rw [hat, List.getLast?_cons_cons, List.getLast?_cons_cons] at h
      exact h
    exact ih y h2

theorem parseIdxList_dumpsBody (xs : List ℤ) :
    parseIdxList (dumpsBody (xs.map some)) = some xs.toFinset := by
  cases xs with
  | nil => decide
  | cons x r =>
    have hhead : ∀ c, (dumpsBody ((x :: r).map some)).head? = some c → isSpaceCh c = false := by
      intro c hc
      have hmem := List.mem_of_mem_head? hc
      have hfirst : c ∈ dumpElem (some x) ∨ isSpaceCh c = false := by
        cases r with
        | nil =>
          rw [List.map_cons, List.map_nil, dumpsBody_single] at hmem
          exact Or.inl hmem
        | cons y r2 =>
          rw [dumpsBody_map_cons_cons] at hc
          rw [List.head?_append_of_ne_nil _ (intChars_ne_nil x)] at hc
          exact Or.inl (List.mem_of_mem_head? hc)
      rcases hfirst with he | he
      · rcases intChars_mem he with h2 | h2
        · subst h2; decide
        · exact (isDigitCh_not_special h2).2.2.2.2.2.2
      · exact he
    have hlast : ∀ c, (dumpsBody ((x :: r).map some)).getLast? = some c → isSpaceCh c = false := by
      intro c hc
      exact (isDigitCh_not_special (dumpsBody_getLast_digit r x hc)).2.2.2.2.2.2
    have hstrip := stripChars_eq_self hhead hlast
    unfold parseIdxList
    rw [hstrip]
    have hne : dumpsBody ((x :: r).map some) ≠ [] := by
      rw [List.map_cons]
      exact dumpsBody_ne_nil (some x) _ (intChars_ne_nil x)
    rw [if_neg hne]
    have hpa := parseAll_splitParse (x :: r) (by simp) [] (by simp)
    rw [List.nil_append] at hpa
    rw [hpa]
    simp

theorem parseIdxList_null : parseIdxList (dumpsBody [none]) = none := by decide

/-! ### Lines of the manifest and the substitution -/

/-- Join lines with newlines, the inverse of `splitOnChar '\n'`. -/
def joinNl : List (List Char) → List Char
  | [] => []
  | [l] => l
  | l :: l2 :: rest => l ++ '\n' :: joinNl (l2 :: rest)

theorem splitOnChar_ne_nil (sep : Char) (x : List Char) : splitOnChar sep x ≠ [] := by
  cases x with
  | nil => simp [splitOnChar]
  | cons c rest =>
    rw [splitOnChar]
    split
    · simp
    · split
      · simp
      · simp

theorem joinNl_splitOnChar (x : List Char) : joinNl (splitOnChar '\n' x) = x := by
  induction x with
  | nil => rfl
  | cons c rest ih =>
    rw [splitOnChar]
    by_cases hc : c = '\n'
    · rw [if_pos hc]
      obtain ⟨h, t, hht⟩ := List.exists_cons_of_ne_nil (splitOnChar_ne_nil '\n' rest)
      rw [hht]
      show ([] : List Char) ++ '\n' :: joinNl (h :: t) = c :: rest
      rw [List.nil_append, ← hht, ih, hc]
    · rw [if_neg hc]
      obtain ⟨h, t, hht⟩ := List.exists_cons_of_ne_nil (splitOnChar_ne_nil '\n' rest)
      rw [hht]
      cases t with
      | nil =>
        show c :: h = c :: rest
        have : joinNl [h] = rest := by rw [← hht, ih]
        simpa [joinNl] using this
      | cons t1 t2 =>
        show (c :: h) ++ '\n' :: joinNl (t1 :: t2) = c :: rest
        have : joinNl (h :: t1 :: t2) = rest := by rw [← hht, ih]
        rw [joinNl] at this
        rw [List.cons_append, this]

theorem mem_splitOnChar_no_sep {sep : Char} {x : List Char} :
    ∀ l ∈ splitOnChar sep x, ∀ c ∈ l, c ≠ sep := by
  induction x with
  | nil =>
    intro l hl
    simp [splitOnChar] at hl
    subst hl
    intro c hc
    cases hc
  | cons c rest ih =>
    intro l hl
    rw [splitOnChar] at hl
    by_cases hc : c = sep
    · rw [if_pos hc] at hl
      rcases List.mem_cons.mp hl with he | he
      · subst he; intro d hd; cases hd
      · exact ih l he
    · rw [if_neg hc] at hl
      obtain ⟨h, t, hht⟩ := List.exists_cons_of_ne_nil (splitOnChar_ne_nil sep rest)
      rw [hht] at hl
      rcases List.mem_cons.mp hl with he | he
      · subst he
        intro d hd
        rcases List.mem_cons.mp hd with hd2 | hd2
        · subst hd2; exact hc
        · exact ih h (by rw [hht]; simp) d hd2
      · exact ih l (by rw [hht]; simp [he])

theorem splitOnChar_joinNl {ls : List (List Char)} (hne : ls ≠ [])
    (hfree : ∀ l ∈ ls, ∀ c ∈ l, c ≠ '\n') :
    splitOnChar '\n' (joinNl ls) = ls := by
  induction ls with
  | nil => cases hne rfl
  | cons l rest ih =>
    cases rest with
    | nil =>
      show splitOnChar '\n' l = [l]
      exact splitOnChar_no_sep (hfree l (by simp))
    | cons l2 rest2 =>
      rw [joinNl]
      rw [splitOnChar_append_sep (hfree l (by simp))]
      rw [ih (by simp) (fun x hx => hfree x (by simp [hx]))]

theorem find?_map_pred {f : List Char → List Char} {q : List Char → Bool}
    (h : ∀ l, q (f l) = q l) :
    ∀ ls : List (List Char), (ls.map f).find? q = (ls.find? q).map f := by
  intro ls
  induction ls with
  | nil => rfl
  | cons l rest ih =>
    rw [List.map_cons, List.find?_cons, List.find?_cons, h l]
    by_cases hq : q l = true
    · rw [hq]
      rfl
    · simp only [Bool.not_eq_true] at hq
      rw [hq]
      exact ih

theorem captureToRB_append_newline (x y : List Char) :
    captureToRB (x ++ '\n' :: y) =
      (captureToRB x).map (fun pr => (pr.1, pr.2 ++ '\n' :: y)) := by
  induction x with
  | nil =>
    rw [List.nil_append, captureToRB]
    simp [captureToRB]
  | cons c rest ih =>
    rw [List.cons_append, captureToRB, captureToRB]
    by_cases h1 : c = ']'
    · rw [if_pos h1, if_pos h1]
      rfl
    · rw [if_neg h1, if_neg h1]
      by_cases h2 : c = '\n'
      · rw [if_pos h2, if_pos h2]
        rfl
      · rw [if_neg h2, if_neg h2, ih]
        cases captureToRB rest <;> rfl

theorem isPrefixOf_head_ne {p : List Char} {c d : Char} {ps l : List Char}
    (hp : p = c :: ps) (h : c ≠ d) : p.isPrefixOf (d :: l) = false := by
  subst hp
  rw [List.isPrefixOf]
  have : (c == d) = false := by
    rw [beq_eq_false_iff_ne]
    exact h
  rw [this]
  rfl

theorem litDI_head_eq : litDI = '"' :: litDI.tail := by decide

theorem litDI_not_newline_head (l : List Char) :
    litDI.isPrefixOf ('\n' :: l) = false :=
  isPrefixOf_head_ne litDI_head_eq (by decide)

theorem prefix_short_of_append {p a t : List Char}
    (h : p.isPrefixOf (a ++ t) = true) (hl : a.length ≤ p.length) :
    a = p.take a.length := by
  rw [isPrefixOfIff] at h
  have ha : a <+: a ++ t := List.prefix_append a t
  have hap : a <+: p := List.prefix_of_prefix_length_le ha h hl
  exact List.prefix_iff_eq_take.mp hap

theorem mem_of_prefix_cross {p a t : List Char} {d : Char}
    (h : p.isPrefixOf (a ++ d :: t) = true) (hl : a.length < p.length) : d ∈ p := by
  rw [isPrefixOfIff] at h
  have ha : a ++ [d] <+: a ++ d :: t := by
    have : a ++ d :: t = (a ++ [d]) ++ t := by simp
    rw [this]
    exact List.prefix_append (a ++ [d]) t
  have hap : a ++ [d] <+: p :=
    List.prefix_of_prefix_length_le ha h (by simpa using hl)
  exact hap.subset (by simp)

theorem newline_not_mem_litDI : '\n' ∉ litDI := by decide


theorem reSubDI_nil (repl : List Char) : reSubDI repl [] = [] := by
  rw [reSubDI]

theorem reSubDI_cons_nomatch {repl : List Char} {c : Char} {rest : List Char}
    (h : litDI.isPrefixOf (c :: rest) = false) :
    reSubDI repl (c :: rest) = c :: reSubDI repl rest := by
  rw [reSubDI, h]
  simp

theorem reSubDI_cons_capnone {repl : List Char} {c : Char} {rest : List Char}
    (h : litDI.isPrefixOf (c :: rest) = true)
    (hc : captureToRB ((c :: rest).drop litDI.length) = none) :
    reSubDI repl (c :: rest) = c :: reSubDI repl rest := by
  rw [reSubDI, h, hc]
  rfl

theorem reSubDI_cons_capsome {repl : List Char} {c : Char} {rest : List Char}
    {pr : List Char × List Char}
    (h : litDI.isPrefixOf (c :: rest) = true)
    (hc : captureToRB ((c :: rest).drop litDI.length) = some pr) :
    reSubDI repl (c :: rest) = repl ++ reSubDI repl pr.2 := by
  rw [reSubDI, h, hc]
  rfl

/-- L5: matches never cross a newline, so substitution distributes over it. -/
theorem reSubDI_newline {repl : List Char} :
    ∀ (a b : List Char), reSubDI repl (a ++ '\n' :: b) =
      reSubDI repl a ++ '\n' :: reSubDI repl b := by
  have main : ∀ n (a : List Char), a.length ≤ n → ∀ b,
      reSubDI repl (a ++ '\n' :: b) = reSubDI repl a ++ '\n' :: reSubDI repl b := by
    intro n
    induction n with
    | zero =>
      intro a ha b
      have hnil : a = [] := List.length_eq_zero.mp (Nat.le_zero.mp ha)
      subst hnil
      rw [List.nil_append, reSubDI_cons_nomatch (litDI_not_newline_head b),
        reSubDI_nil, List.nil_append]
    | succ n ih =>
      intro a ha b
      cases a with
      | nil =>
        rw [List.nil_append, reSubDI_cons_nomatch (litDI_not_newline_head b),
          reSubDI_nil, List.nil_append]
      | cons c a2 =>
        have ha2 : a2.length ≤ n := by
          simp only [List.length_cons] at ha
          omega
        have hsh : (c :: a2) ++ '\n' :: b = c :: (a2 ++ '\n' :: b) := by simp
        by_cases hpre : litDI.isPrefixOf (c :: (a2 ++ '\n' :: b)) = true
        · by_cases hlen : litDI.length ≤ (c :: a2).length
          · have hpre2 : litDI.isPrefixOf ((c :: a2) ++ '\n' :: b) = true := by
              rw [hsh]
              exact hpre
            rw [isPrefixOf_append_right hlen] at hpre2
            have hdrop : (c :: (a2 ++ '\n' :: b)).drop litDI.length =
                ((c :: a2).drop litDI.length) ++ '\n' :: b := by
              rw [← hsh]
              exact List.drop_append_of_le_length hlen
            cases hcap : captureToRB ((c :: a2).drop litDI.length) with
            | none =>
              have hcapext : captureToRB ((c :: (a2 ++ '\n' :: b)).drop litDI.length) = none := by
                rw [hdrop, captureToRB_append_newline, hcap]
                rfl
              rw [hsh, reSubDI_cons_capnone hpre hcapext,
                reSubDI_cons_capnone hpre2 hcap, List.cons_append, ih a2 ha2 b]
            | some pr =>
              have hcapext : captureToRB ((c :: (a2 ++ '\n' :: b)).drop litDI.length) =
                  some (pr.1, pr.2 ++ '\n' :: b) := by
                rw [hdrop, captureToRB_append_newline, hcap]
                rfl
              have hprlen : pr.2.length ≤ n := by
                have h1 := captureToRB_length hcap
                have h2 : ((c :: a2).drop litDI.length).length =
                    (c :: a2).length - litDI.length := by
                  rw [List.length_drop]
                have h3 : litDI.length = 20 := litDI_length
                simp only [List.length_cons] at h2 ha
                omega
              rw [hsh, reSubDI_cons_capsome hpre hcapext,
                reSubDI_cons_capsome hpre2 hcap]
              show repl ++ reSubDI repl (pr.2 ++ '\n' :: b) = _
              rw [ih pr.2 hprlen b, List.append_assoc]
          · have hmem : '\n' ∈ litDI := by
              refine @mem_of_prefix_cross litDI (c :: a2) b '\n' ?_ ?_
              · rw [hsh]
                exact hpre
              · omega
            exact absurd hmem newline_not_mem_litDI
        · simp only [Bool.not_eq_true] at hpre
          have hshort : litDI.isPrefixOf (c :: a2) = false := by
            by_contra hcon
            simp only [Bool.not_eq_false] at hcon
            have hmono := @isPrefixOf_mono litDI (c :: a2) ('\n' :: b) hcon
            rw [hsh] at hmono
            rw [hmono] at hpre
            cases hpre
          rw [hsh, reSubDI_cons_nomatch hpre, reSubDI_cons_nomatch hshort,
            List.cons_append, ih a2 ha2 b]
  exact fun a b => main a.length a (le_refl _) b

theorem reSubDI_joinNl {repl : List Char} :
    ∀ ls : List (List Char), reSubDI repl (joinNl ls) = joinNl (ls.map (reSubDI repl)) := by
  intro ls
  induction ls with
  | nil => exact reSubDI_nil repl
  | cons l rest ih =>
    cases rest with
    | nil => rfl
    | cons l2 r2 =>
      show reSubDI repl (l ++ '\n' :: joinNl (l2 :: r2)) = _
      rw [reSubDI_newline, ih]
      rfl

theorem captureToRB_sub {x : List Char} {pr : List Char × List Char}
    (h : captureToRB x = some pr) : ∀ c ∈ pr.2, c ∈ x := by
  induction x generalizing pr with
  | nil => cases h
  | cons d rest ih =>
    rw [captureToRB] at h
    by_cases h1 : d = ']'
    · rw [if_pos h1] at h
      injection h with h
      subst h
      intro c hc
      simp [hc]
    · rw [if_neg h1] at h
      by_cases h2 : d = '\n'
      · rw [if_pos h2] at h
        cases h
      · rw [if_neg h2] at h
        cases hr : captureToRB rest with
        | none => rw [hr] at h; cases h
        | some q =>
          rw [hr] at h
          injection h with h
          intro c hc
          have : c ∈ q.2 := by
            rw [← h] at hc
            exact hc
          exact List.mem_cons_of_mem d (ih hr c this)

theorem reSubDI_mem {repl : List Char} :
    ∀ l, ∀ c ∈ reSubDI repl l, c ∈ l ∨ c ∈ repl := by
  have main : ∀ n l, l.length ≤ n → ∀ c ∈ reSubDI repl l, c ∈ l ∨ c ∈ repl := by
    intro n
    induction n with
    | zero =>
      intro l hl c hc
      have : l = [] := List.length_eq_zero.mp (Nat.le_zero.mp hl)
      subst this
      rw [reSubDI_nil] at hc
      cases hc
    | succ n ih =>
      intro l hl c hc
      cases l with
      | nil =>
        rw [reSubDI_nil] at hc
        cases hc
      | cons d rest =>
        have hr : rest.length ≤ n := by
          simp only [List.length_cons] at hl
          omega
        by_cases hpre : litDI.isPrefixOf (d :: rest) = true
        · cases hcap : captureToRB ((d :: rest).drop litDI.length) with
          | none =>
            rw [reSubDI_cons_capnone hpre hcap] at hc
            rcases List.mem_cons.mp hc with he | he
            · exact Or.inl (by simp [he])
            · rcases ih rest hr c he with h2 | h2
              · exact Or.inl (by simp [h2])
              · exact Or.inr h2
          | some pr =>
            rw [reSubDI_cons_capsome hpre hcap] at hc
            rcases List.mem_append.mp hc with he | he
            · exact Or.inr he
            · have hlen : pr.2.length ≤ n := by
                have h1 := captureToRB_length hcap
                have h2 : ((d :: rest).drop litDI.length).length ≤ rest.length := by
                  rw [List.length_drop]
                  have := litDI_length
                  simp only [List.length_cons]
                  omega
                omega
              rcases ih pr.2 hlen c he with h2 | h2
              · have h3 := captureToRB_sub hcap c h2
                have h4 : c ∈ d :: rest := List.mem_of_mem_drop h3
                exact Or.inl h4
              · exact Or.inr h2
        · simp only [Bool.not_eq_true] at hpre
          rw [reSubDI_cons_nomatch hpre] at hc
          rcases List.mem_cons.mp hc with he | he
          · exact Or.inl (by simp [he])
          · rcases ih rest hr c he with h2 | h2
            · exact Or.inl (by simp [h2])
            · exact Or.inr h2
  exact fun l => main l.length l (le_refl _)

theorem patDI_length : patDI.length = 18 := by decide

theorem patDI_drop_take : ∀ k < 18, 1 ≤ k → patDI.drop k ≠ litDI.take (18 - k) := by decide

theorem litDI_drop_take : ∀ k < 20, 1 ≤ k → litDI.drop k ≠ litDI.take (20 - k) := by decide

theorem no_occ_in_pat_tail {t : List Char} {k : ℕ} (h1 : 1 ≤ k) (h2 : k ≤ 17) :
    litDI.isPrefixOf (patDI.drop k ++ t) = false := by
  by_contra hcon
  simp only [Bool.not_eq_false] at hcon
  have hlen : (patDI.drop k).length ≤ litDI.length := by
    rw [List.length_drop, patDI_length, litDI_length]
    omega
  have := prefix_short_of_append hcon hlen
  rw [List.length_drop, patDI_length] at this
  exact patDI_drop_take k (by omega) (by omega) this

theorem no_occ_in_lit_tail {t : List Char} {k : ℕ} (h1 : 1 ≤ k) (h2 : k ≤ 19) :
    litDI.isPrefixOf (litDI.drop k ++ t) = false := by
  by_contra hcon
  simp only [Bool.not_eq_false] at hcon
  have hlen : (litDI.drop k).length ≤ litDI.length := by
    rw [List.length_drop]
    omega
  have := prefix_short_of_append hcon hlen
  rw [List.length_drop, litDI_length] at this
  exact litDI_drop_take k (by omega) (by omega) this

theorem reSubDI_pat_tail {repl tail : List Char} :
    reSubDI repl (patDI.tail ++ tail) = patDI.tail ++ reSubDI repl tail := by
  apply reSubDI_skip
  intro i hi
  have hlen : patDI.tail.length = 17 := by decide
  have hd : (patDI.tail ++ tail).drop i = patDI.tail.drop i ++ tail :=
    List.drop_append_of_le_length (by omega)
  have hdd : patDI.tail.drop i = patDI.drop (1 + i) := by
    rw [← List.drop_one, List.drop_drop]
  rw [hd, hdd]
  exact no_occ_in_pat_tail (by omega) (by rw [hlen] at hi; omega)

theorem reSubDI_lit_tail {repl tail : List Char} :
    reSubDI repl (litDI.tail ++ tail) = litDI.tail ++ reSubDI repl tail := by
  apply reSubDI_skip
  intro i hi
  have hlen : litDI.tail.length = 19 := by decide
  have hd : (litDI.tail ++ tail).drop i = litDI.tail.drop i ++ tail :=
    List.drop_append_of_le_length (by omega)
  have hdd : litDI.tail.drop i = litDI.drop (1 + i) := by
    rw [← List.drop_one, List.drop_drop]
  rw [hd, hdd]
  exact no_occ_in_lit_tail (by omega) (by rw [hlen] at hi; omega)

theorem patDI_cons : patDI = '"' :: patDI.tail := by decide

theorem isPrefixOf_self (p : List Char) : p.isPrefixOf p = true :=
  isPrefixOfIff.mpr List.prefix_rfl

theorem reSubDI_keeps_patDI_head {repl : List Char} {c : Char} {rest : List Char}
    (h : patDI.isPrefixOf (c :: rest) = true) :
    patDI.isPrefixOf (c :: reSubDI repl rest) = true := by
  rw [isPrefixOfIff] at h
  obtain ⟨tail, htail⟩ := h
  have hc : c = '"' := by
    rw [patDI_cons, List.cons_append] at htail
    injection htail with h1 h2
    exact h1.symm
  have hrest : rest = patDI.tail ++ tail := by
    rw [patDI_cons, List.cons_append] at htail
    injection htail with _ h2
    exact h2.symm
  rw [hrest, reSubDI_pat_tail, hc]
  have : ('"' : Char) :: (patDI.tail ++ reSubDI repl tail) =
      patDI ++ reSubDI repl tail := by
    rw [patDI_cons]
    rfl
  rw [this]
  exact isPrefixOf_mono (isPrefixOf_self patDI)

theorem containsSub_of_isPrefixOf {pat x : List Char} (h : pat.isPrefixOf x = true) :
    containsSub pat x = true := by
  cases x with
  | nil =>
    rw [containsSub]
    cases pat with
    | nil => rfl
    | cons p ps => cases h
  | cons c rest =>
    rw [containsSub, h]
    rfl

theorem containsSub_tail {pat : List Char} {c : Char} {rest : List Char}
    (h : containsSub pat rest = true) : containsSub pat (c :: rest) = true := by
  rw [containsSub, h]
  simp

theorem containsSub_of_append_pat {q r x : List Char}
    (h : containsSub (q ++ r) x = true) : containsSub q x = true := by
  induction x with
  | nil =>
    rw [containsSub] at h ⊢
    rcases List.append_eq_nil.mp (List.isEmpty_iff.mp h) with ⟨h1, _⟩
    rw [h1]
    rfl
  | cons c rest ih =>
    rw [containsSub] at h
    rcases Bool.or_eq_true_iff.mp h with he | he
    · rw [isPrefixOfIff] at he
      have : q <+: c :: rest := (List.prefix_append q r).trans he
      exact containsSub_of_isPrefixOf (isPrefixOfIff.mpr this)
    · exact containsSub_tail (ih he)

theorem litDI_decomp : litDI = patDI ++ " [".toList := by decide

theorem containsSub_patDI_of_litDI {x : List Char} (h : containsSub litDI x = true) :
    containsSub patDI x = true := by
  rw [litDI_decomp] at h
  exact containsSub_of_append_pat h

theorem isPrefixOf_cons_cons (a b : Char) (as bs : List Char) :
    (a :: as).isPrefixOf (b :: bs) = (a == b && as.isPrefixOf bs) := rfl

theorem replOf_long (xs : List (Option ℤ)) : litDI.length ≤ (replOf xs).length := by
  rw [replOf_eq, List.length_append]
  omega

/-- A suffix of the literal surviving the substitution was already there. -/
theorem lit_drop_reflect {xs : List (Option ℤ)} :
    ∀ (l : List Char) (k : ℕ), k ≤ 20 →
      (litDI.drop k).isPrefixOf (reSubDI (replOf xs) l) = true →
      (litDI.drop k).isPrefixOf l = true := by
  have main : ∀ n (l : List Char), l.length ≤ n → ∀ (k : ℕ), k ≤ 20 →
      (litDI.drop k).isPrefixOf (reSubDI (replOf xs) l) = true →
      (litDI.drop k).isPrefixOf l = true := by
    intro n
    induction n with
    | zero =>
      intro l hl k hk h
      have : l = [] := List.length_eq_zero.mp (Nat.le_zero.mp hl)
      subst this
      rw [reSubDI_nil] at h
      exact h
    | succ n ih =>
      intro l hl k hk h
      cases l with
      | nil =>
        rw [reSubDI_nil] at h
        exact h
      | cons c rest =>
        have hr : rest.length ≤ n := by
          simp only [List.length_cons] at hl
          omega
        by_cases hk20 : k = 20
        · subst hk20
          have hnil : litDI.drop 20 = [] := by decide
          rw [hnil]
          rfl
        by_cases hpre : litDI.isPrefixOf (c :: rest) = true
        · cases hcap : captureToRB ((c :: rest).drop litDI.length) with
          | some pr =>
            by_cases hk0 : k = 0
            · subst hk0
              rw [List.drop_zero]
              exact hpre
            · exfalso
              rw [reSubDI_cons_capsome hpre hcap] at h
              have hlen : (litDI.drop k).length ≤ (replOf xs).length := by
                rw [List.length_drop, litDI_length]
                have := replOf_long xs
                rw [litDI_length] at this
                omega
              rw [isPrefixOf_append_right hlen, replOf_eq] at h
              have hlen2 : (litDI.drop k).length ≤ litDI.length := by
                rw [List.length_drop]
                omega
              rw [isPrefixOf_append_right hlen2, isPrefixOfIff] at h
              have heq := List.prefix_iff_eq_take.mp h
              rw [List.length_drop, litDI_length] at heq
              exact litDI_drop_take k (by omega) (by omega) heq
          | none =>
            rw [reSubDI_cons_capnone hpre hcap] at h
            have hklt : k < litDI.length := by
              rw [litDI_length]
              omega
            rw [List.drop_eq_getElem_cons hklt, isPrefixOf_cons_cons] at h
            simp only [Bool.and_eq_true] at h
            obtain ⟨h1, h2⟩ := h
            rw [List.drop_eq_getElem_cons hklt, isPrefixOf_cons_cons]
            simp only [Bool.and_eq_true]
            exact ⟨h1, ih rest hr (k + 1) (by omega) h2⟩
        · simp only [Bool.not_eq_true] at hpre
          rw [reSubDI_cons_nomatch hpre] at h
          have hklt : k < litDI.length := by
            rw [litDI_length]
            omega
          rw [List.drop_eq_getElem_cons hklt, isPrefixOf_cons_cons] at h
          simp only [Bool.and_eq_true] at h
          obtain ⟨h1, h2⟩ := h
          rw [List.drop_eq_getElem_cons hklt, isPrefixOf_cons_cons]
          simp only [Bool.and_eq_true]
          exact ⟨h1, ih rest hr (k + 1) (by omega) h2⟩
  exact fun l => main l.length l (le_refl _)

theorem lit_reflect {xs : List (Option ℤ)} {l : List Char}
    (h : litDI.isPrefixOf (reSubDI (replOf xs) l) = true) :
    litDI.isPrefixOf l = true := by
  have := lit_drop_reflect l 0 (by omega) (by simpa using h)
  simpa using this

theorem reSearchDI_cons_nomatch {c : Char} {rest : List Char}
    (h : litDI.isPrefixOf (c :: rest) = false) :
    reSearchDI (c :: rest) = reSearchDI rest := by
  rw [reSearchDI, h]
  simp

theorem reSearchDI_cons_capnone {c : Char} {rest : List Char}
    (h : litDI.isPrefixOf (c :: rest) = true)
    (hc : captureToRB ((c :: rest).drop litDI.length) = none) :
    reSearchDI (c :: rest) = reSearchDI rest := by
  rw [reSearchDI, h, hc]
  rfl

theorem reSearchDI_cons_capsome {c : Char} {rest : List Char}
    {pr : List Char × List Char}
    (h : litDI.isPrefixOf (c :: rest) = true)
    (hc : captureToRB ((c :: rest).drop litDI.length) = some pr) :
    reSearchDI (c :: rest) = some pr.1 := by
  rw [reSearchDI, h, hc]
  rfl

/-- A line without a match is left unchanged by the substitution. -/
theorem reSearchDI_none_fix {repl : List Char} :
    ∀ {l : List Char}, reSearchDI l = none → reSubDI repl l = l := by
  intro l
  induction l with
  | nil => intro _; exact reSubDI_nil repl
  | cons c rest ih =>
    intro h
    by_cases hpre : litDI.isPrefixOf (c :: rest) = true
    · cases hcap : captureToRB ((c :: rest).drop litDI.length) with
      | some pr =>
        rw [reSearchDI_cons_capsome hpre hcap] at h
        cases h
      | none =>
        rw [reSearchDI_cons_capnone hpre hcap] at h
        rw [reSubDI_cons_capnone hpre hcap, ih h]
    · simp only [Bool.not_eq_true] at hpre
      rw [reSearchDI_cons_nomatch hpre] at h
      rw [reSubDI_cons_nomatch hpre, ih h]

theorem reSearchDI_hit {b z : List Char} (hb : ∀ c ∈ b, c ≠ ']' ∧ c ≠ '\n') :
    reSearchDI (litDI ++ (b ++ ']' :: z)) = some b := by
  have hne : litDI ++ (b ++ ']' :: z) ≠ [] := by simp [litDI]
  obtain ⟨c, rest, hcr⟩ := List.exists_cons_of_ne_nil hne
  rw [hcr, reSearchDI]
  have hpre : litDI.isPrefixOf (c :: rest) = true := by
    rw [← hcr, isPrefixOfIff]
    exact List.prefix_append litDI (b ++ ']' :: z)
  rw [hpre]
  have hdrop : (c :: rest).drop litDI.length = b ++ ']' :: z := by
    rw [← hcr, List.drop_left]
  rw [hdrop, captureToRB_clean hb]
  rfl

theorem captureToRB_none_mem {x : List Char} (h : captureToRB x = none)
    (hn : ∀ c ∈ x, c ≠ '\n') : ∀ c ∈ x, c ≠ ']' := by
  induction x with
  | nil => intro c hc; cases hc
  | cons d rest ih =>
    rw [captureToRB] at h
    by_cases h1 : d = ']'
    · rw [if_pos h1] at h
      cases h
    · rw [if_neg h1] at h
      by_cases h2 : d = '\n'
      · exact absurd h2 (hn d (by simp))
      · rw [if_neg h2] at h
        cases hr : captureToRB rest with
        | some q =>
          rw [hr] at h
          simp at h
        | none =>
          intro c hc
          rcases List.mem_cons.mp hc with he | he
          · subst he
            exact h1
          · exact ih hr (fun c2 hc2 => hn c2 (by simp [hc2])) c he

theorem captureToRB_some_rb {x : List Char} {pr : List Char × List Char}
    (h : captureToRB x = some pr) : ']' ∈ x := by
  induction x generalizing pr with
  | nil => cases h
  | cons d rest ih =>
    rw [captureToRB] at h
    by_cases h1 : d = ']'
    · subst h1
      simp
    · rw [if_neg h1] at h
      by_cases h2 : d = '\n'
      · rw [if_pos h2] at h
        cases h
      · rw [if_neg h2] at h
        cases hr : captureToRB rest with
        | none =>
          rw [hr] at h
          simp at h
        | some q => exact List.mem_cons_of_mem d (ih hr)

theorem reSearchDI_some_rb {x : List Char} {cap : List Char}
    (h : reSearchDI x = some cap) : ']' ∈ x := by
  induction x generalizing cap with
  | nil => cases h
  | cons d rest ih =>
    by_cases hpre : litDI.isPrefixOf (d :: rest) = true
    · cases hc : captureToRB ((d :: rest).drop litDI.length) with
      | some pr => exact List.mem_of_mem_drop (captureToRB_some_rb hc)
      | none =>
        rw [reSearchDI_cons_capnone hpre hc] at h
        exact List.mem_cons_of_mem d (ih h)
    · simp only [Bool.not_eq_true] at hpre
      rw [reSearchDI_cons_nomatch hpre] at h
      exact List.mem_cons_of_mem d (ih h)

theorem patDI_isPrefixOf_litDI : patDI.isPrefixOf litDI = true := by decide

/-- L7: presence of the search token on a line survives the substitution. -/
theorem containsSub_patDI_reSubDI {xs : List (Option ℤ)} :
    ∀ l, containsSub patDI l = true →
      containsSub patDI (reSubDI (replOf xs) l) = true := by
  have main : ∀ n l, l.length ≤ n → containsSub patDI l = true →
      containsSub patDI (reSubDI (replOf xs) l) = true := by
    intro n
    induction n with
    | zero =>
      intro l hl h
      have : l = [] := List.length_eq_zero.mp (Nat.le_zero.mp hl)
      subst this
      rw [reSubDI_nil]
      exact h
    | succ n ih =>
      intro l hl h
      cases l with
      | nil =>
        rw [reSubDI_nil]
        exact h
      | cons c rest =>
        have hr : rest.length ≤ n := by
          simp only [List.length_cons] at hl
          omega
        by_cases hpre : litDI.isPrefixOf (c :: rest) = true
        · cases hcap : captureToRB ((c :: rest).drop litDI.length) with
          | some pr =>
            rw [reSubDI_cons_capsome hpre hcap]
            apply containsSub_of_isPrefixOf
            rw [replOf_eq, List.append_assoc]
            exact isPrefixOf_mono patDI_isPrefixOf_litDI
          | none =>
            rw [reSubDI_cons_capnone hpre hcap]
            rw [containsSub] at h
            rcases Bool.or_eq_true_iff.mp h with he | he
            · exact containsSub_of_isPrefixOf (reSubDI_keeps_patDI_head he)
            · exact containsSub_tail (ih rest hr he)
        · simp only [Bool.not_eq_true] at hpre
          rw [reSubDI_cons_nomatch hpre]
          rw [containsSub] at h
          rcases Bool.or_eq_true_iff.mp h with he | he
          · exact containsSub_of_isPrefixOf (reSubDI_keeps_patDI_head he)
          · exact containsSub_tail (ih rest hr he)
  exact fun l => main l.length l (le_refl _)

theorem containsSub_patDI_reSubDI_eq (xs : List (Option ℤ)) (l : List Char) :
    containsSub patDI (reSubDI (replOf xs) l) = containsSub patDI l := by
  by_cases hl : containsSub patDI l = true
  · rw [hl]
    exact containsSub_patDI_reSubDI l hl
  · simp only [Bool.not_eq_true] at hl
    have hlit : containsSub litDI l = false := by
      by_contra hcon
      simp only [Bool.not_eq_false] at hcon
      rw [containsSub_patDI_of_litDI hcon] at hl
      cases hl
    rw [reSubDI_id hlit, hl]

/-- L8: on a newline-free line with a match, the substituted line's match
captures exactly the written body. -/
theorem reSearchDI_reSubDI {xs : List (Option ℤ)} :
    ∀ l : List Char, (∀ c ∈ l, c ≠ '\n') → ∀ cap, reSearchDI l = some cap →
      reSearchDI (reSubDI (replOf xs) l) = some (dumpsBody xs) := by
  have main : ∀ n (l : List Char), l.length ≤ n → (∀ c ∈ l, c ≠ '\n') →
      ∀ cap, reSearchDI l = some cap →
      reSearchDI (reSubDI (replOf xs) l) = some (dumpsBody xs) := by
    intro n
    induction n with
    | zero =>
      intro l hl hn cap h
      have : l = [] := List.length_eq_zero.mp (Nat.le_zero.mp hl)
      subst this
      cases h
    | succ n ih =>
      intro l hl hn cap h
      cases l with
      | nil => cases h
      | cons c rest =>
        have hr : rest.length ≤ n := by
          simp only [List.length_cons] at hl
          omega
        by_cases hpre : litDI.isPrefixOf (c :: rest) = true
        · cases hcap : captureToRB ((c :: rest).drop litDI.length) with
          | some pr =>
            rw [reSubDI_cons_capsome hpre hcap]
            have hrepl : replOf xs ++ reSubDI (replOf xs) pr.2 =
                litDI ++ (dumpsBody xs ++ ']' :: reSubDI (replOf xs) pr.2) := by
              rw [replOf_eq]
              simp
            rw [hrepl]
            exact reSearchDI_hit (fun c2 hc2 => dumpsBody_clean hc2)
          | none =>
            exfalso
            rw [reSearchDI_cons_capnone hpre hcap] at h
            have hrb : ']' ∈ rest := reSearchDI_some_rb h
            rw [isPrefixOfIff] at hpre
            obtain ⟨t, ht⟩ := hpre
            have hc : c = '"' := by
              rw [litDI_head_eq, List.cons_append] at ht
              injection ht with h1 h2
              exact h1.symm
            have hrest : rest = litDI.tail ++ t := by
              rw [litDI_head_eq, List.cons_append] at ht
              injection ht with h1 h2
              exact h2.symm
            have hdrop : (c :: rest).drop litDI.length = t := by
              rw [← ht, List.drop_left]
            rw [hdrop] at hcap
            have hnt : ∀ c2 ∈ t, c2 ≠ '\n' := by
              intro c2 hc2
              apply hn
              rw [← hdrop] at hc2
              exact List.mem_of_mem_drop hc2
            have hnorb := captureToRB_none_mem hcap hnt
            rw [hrest] at hrb
            rcases List.mem_append.mp hrb with he | he
            · have : (']' : Char) ∉ litDI.tail := by decide
              exact this he
            · exact hnorb ']' he rfl
        · simp only [Bool.not_eq_true] at hpre
          rw [reSearchDI_cons_nomatch hpre] at h
          rw [reSubDI_cons_nomatch hpre]
          have hfalse : litDI.isPrefixOf (c :: reSubDI (replOf xs) rest) = false := by
            by_contra hcon
            simp only [Bool.not_eq_false] at hcon
            rw [← reSubDI_cons_nomatch hpre] at hcon
            rw [lit_reflect hcon] at hpre
            cases hpre
          rw [reSearchDI_cons_nomatch hfalse]
          exact ih rest hr (fun c2 hc2 => hn c2 (by simp [hc2])) cap h
  exact fun l => main l.length l (le_refl _)

theorem reSubDI_no_nl {xs : List (Option ℤ)} {l : List Char}
    (h : ∀ c ∈ l, c ≠ '\n') : ∀ c ∈ reSubDI (replOf xs) l, c ≠ '\n' := by
  intro c hc
  rcases reSubDI_mem l c hc with he | he
  · exact h c he
  · exact replOf_no_nl he

theorem splitOnChar_reSubDI (xs : List (Option ℤ)) (m : List Char) :
    splitOnChar '\n' (reSubDI (replOf xs) m) =
      (splitOnChar '\n' m).map (reSubDI (replOf xs)) := by
  conv_lhs => rw [← joinNl_splitOnChar m]
  rw [reSubDI_joinNl]
  apply splitOnChar_joinNl
  · intro hcon
    exact splitOnChar_ne_nil '\n' m (by simpa using hcon)
  · intro l hl c hc
    rcases List.mem_map.mp hl with ⟨l0, hl0, heq⟩
    rw [← heq] at hc
    exact reSubDI_no_nl (mem_splitOnChar_no_sep l0 hl0) c hc

/-- LD1: a manifest with no token line keeps an empty set after substitution. -/
theorem loadDeleted_reSubDI_nopat {xs : List (Option ℤ)} {m : List Char}
    (h : (splitOnChar '\n' m).find? (fun l => containsSub patDI l) = none) :
    loadDeleted (reSubDI (replOf xs) m) = some (∅ : Finset ℤ) := by
  unfold loadDeleted
  rw [splitOnChar_reSubDI, find?_map_pred (containsSub_patDI_reSubDI_eq xs), h]
  rfl

/-- LD2: a token line with no regex match is untouched; the substituted
manifest still loads an empty set. -/
theorem loadDeleted_reSubDI_nomatch {xs : List (Option ℤ)} {m line : List Char}
    (hf : (splitOnChar '\n' m).find? (fun l => containsSub patDI l) = some line)
    (hs : reSearchDI line = none) :
    loadDeleted (reSubDI (replOf xs) m) = some (∅ : Finset ℤ) := by
  unfold loadDeleted
  rw [splitOnChar_reSubDI, find?_map_pred (containsSub_patDI_reSubDI_eq xs), hf,
    Option.map_some', reSearchDI_none_fix hs]
  show (match reSearchDI line with
    | none => some (∅ : Finset ℤ)
    | some cap => parseIdxList cap) = some ∅
  rw [hs]

/-- LD3: after substitution, loading parses exactly the written body. -/
theorem loadDeleted_reSubDI_match {xs : List (Option ℤ)} {m line cap : List Char}
    (hf : (splitOnChar '\n' m).find? (fun l => containsSub patDI l) = some line)
    (hs : reSearchDI line = some cap) :
    loadDeleted (reSubDI (replOf xs) m) = parseIdxList (dumpsBody xs) := by
  unfold loadDeleted
  rw [splitOnChar_reSubDI, find?_map_pred (containsSub_patDI_reSubDI_eq xs), hf,
    Option.map_some']
  have hnl : ∀ c ∈ line, c ≠ '\n' :=
    mem_splitOnChar_no_sep line (List.mem_of_find?_eq_some hf)
  show (match reSearchDI (reSubDI (replOf xs) line) with
    | none => some (∅ : Finset ℤ)
    | some cap => parseIdxList cap) = parseIdxList (dumpsBody xs)
  rw [reSearchDI_reSubDI line hnl cap hs]

theorem captureToRB_none_of_no_rb {x : List Char} (h : (']' : Char) ∉ x) :
    captureToRB x = none := by
  cases hc : captureToRB x with
  | none => rfl
  | some pr => exact absurd (captureToRB_some_rb hc) h

theorem reSubDI_no_rb {repl : List Char} :
    ∀ {x : List Char}, (']' : Char) ∉ x → reSubDI repl x = x := by
  intro x
  induction x with
  | nil => intro _; exact reSubDI_nil repl
  | cons c rest ih =>
    intro h
    have hrest : (']' : Char) ∉ rest := fun hc => h (List.mem_cons_of_mem c hc)
    by_cases hpre : litDI.isPrefixOf (c :: rest) = true
    · cases hcap : captureToRB ((c :: rest).drop litDI.length) with
      | some pr =>
        exfalso
        exact h (List.mem_of_mem_drop (captureToRB_some_rb hcap))
      | none => rw [reSubDI_cons_capnone hpre hcap, ih hrest]
    · simp only [Bool.not_eq_true] at hpre
      rw [reSubDI_cons_nomatch hpre, ih hrest]

/-- A failed capture on a text containing a closing bracket fails on a
newline: the text splits at that newline with a clean region before it. -/
theorem capn_split :
    ∀ {t : List Char}, captureToRB t = none → (']' : Char) ∈ t →
      ∃ pre post, t = pre ++ '\n' :: post ∧ ∀ c ∈ pre, c ≠ ']' ∧ c ≠ '\n' := by
  intro t
  induction t with
  | nil => intro _ hrb; cases hrb
  | cons d rest ih =>
    intro h hrb
    rw [captureToRB] at h
    by_cases h1 : d = ']'
    · rw [if_pos h1] at h
      cases h
    · rw [if_neg h1] at h
      by_cases h2 : d = '\n'
      · subst h2
        exact ⟨[], rest, rfl, by intro c hc; cases hc⟩
      · rw [if_neg h2] at h
        have hnone : captureToRB rest = none := by
          cases hr : captureToRB rest with
          | none => rfl
          | some q =>
            rw [hr] at h
            simp at h
        have hrb2 : (']' : Char) ∈ rest := by
          rcases List.mem_cons.mp hrb with he | he
          · exact absurd he.symm h1
          · exact he
        obtain ⟨pre, post, heq, hcl⟩ := ih hnone hrb2
        refine ⟨d :: pre, post, by rw [heq, List.cons_append], ?_⟩
        intro c hc
        rcases List.mem_cons.mp hc with he | he
        · subst he
          exact ⟨h1, h2⟩
        · exact hcl c he

/-- Decomposition of a list with the literal at its head. -/
theorem lit_split {c : Char} {rest : List Char}
    (h : litDI.isPrefixOf (c :: rest) = true) :
    c = '"' ∧ rest = litDI.tail ++ (c :: rest).drop litDI.length := by
  rw [isPrefixOfIff] at h
  obtain ⟨t, ht⟩ := h
  have hc : c = '"' := by
    rw [litDI_head_eq, List.cons_append] at ht
    injection ht with h1 h2
    exact h1.symm
  have hdrop : (c :: rest).drop litDI.length = t := by
    rw [← ht, List.drop_left]
  refine ⟨hc, ?_⟩
  rw [hdrop]
  rw [litDI_head_eq, List.cons_append] at ht
  injection ht with h1 h2
  exact h2.symm

/-- The substitution walks over a freshly written replacement in one step. -/
theorem reSubDI_repl_self (xs : List (Option ℤ)) (x : List Char) :
    reSubDI (replOf xs) (replOf xs ++ x) = replOf xs ++ reSubDI (replOf xs) x := by
  have hsh : replOf xs ++ x = litDI ++ dumpsBody xs ++ ']' :: x := by
    rw [replOf_eq]
    simp
  rw [hsh, reSubDI_match (fun c hc => dumpsBody_clean hc)]

/-- IDEM: the global substitution is idempotent. -/
theorem reSubDI_idem (xs : List (Option ℤ)) :
    ∀ m : List Char,
      reSubDI (replOf xs) (reSubDI (replOf xs) m) = reSubDI (replOf xs) m := by
  have main : ∀ n (m : List Char), m.length ≤ n →
      reSubDI (replOf xs) (reSubDI (replOf xs) m) = reSubDI (replOf xs) m := by
    intro n
    induction n with
    | zero =>
      intro m hl
      have : m = [] := List.length_eq_zero.mp (Nat.le_zero.mp hl)
      subst this
      rw [reSubDI_nil, reSubDI_nil]
    | succ n ih =>
      intro m hl
      cases m with
      | nil => rw [reSubDI_nil, reSubDI_nil]
      | cons c rest =>
        have hr : rest.length ≤ n := by
          simp only [List.length_cons] at hl
          omega
        by_cases hpre : litDI.isPrefixOf (c :: rest) = true
        · cases hcap : captureToRB ((c :: rest).drop litDI.length) with
          | some pr =>
            rw [reSubDI_cons_capsome hpre hcap, reSubDI_repl_self]
            have hlen : pr.2.length ≤ n := by
              have h1 := captureToRB_length hcap
              have h2 : ((c :: rest).drop litDI.length).length ≤ rest.length := by
                rw [List.length_drop]
                have := litDI_length
                simp only [List.length_cons]
                omega
              omega
            rw [ih pr.2 hlen]
          | none =>
            obtain ⟨hc, hrest⟩ := lit_split hpre
            rw [reSubDI_cons_capnone hpre hcap]
            have hfrest : reSubDI (replOf xs) rest =
                litDI.tail ++ reSubDI (replOf xs) ((c :: rest).drop litDI.length) := by
              conv_lhs => rw [hrest]
              rw [reSubDI_lit_tail]
            have hshape : c :: reSubDI (replOf xs) rest =
                litDI ++ reSubDI (replOf xs) ((c :: rest).drop litDI.length) := by
              rw [hfrest, hc, litDI_head_eq]
              rfl
            have hpre2 : litDI.isPrefixOf (c :: reSubDI (replOf xs) rest) = true := by
              rw [hshape, isPrefixOfIff]
              exact List.prefix_append litDI _
            have hcap2 : captureToRB ((c :: reSubDI (replOf xs) rest).drop litDI.length) =
                none := by
              rw [hshape, List.drop_left]
              by_cases hrb : (']' : Char) ∈ (c :: rest).drop litDI.length
              · obtain ⟨pre, post, heq, hcl⟩ := capn_split hcap hrb
                rw [heq, reSubDI_newline,
                  reSubDI_no_rb (fun hcon => (hcl ']' hcon).1 rfl),
                  captureToRB_append_newline,
                  captureToRB_none_of_no_rb (fun hcon => (hcl ']' hcon).1 rfl)]
                rfl
              · rw [reSubDI_no_rb hrb]
                exact hcap
            rw [reSubDI_cons_capnone hpre2 hcap2, ih rest hr]
        · simp only [Bool.not_eq_true] at hpre
          rw [reSubDI_cons_nomatch hpre]
          have hpre2 : litDI.isPrefixOf (c :: reSubDI (replOf xs) rest) = false := by
            by_contra hcon
            simp only [Bool.not_eq_false] at hcon
            rw [← reSubDI_cons_nomatch hpre] at hcon
            rw [lit_reflect hcon] at hpre
            cases hpre
          rw [reSubDI_cons_nomatch hpre2, ih rest hr]
  exact fun m => main m.length m (le_refl _)

theorem memOpt_mono {D D2 : Finset ℤ} (hsub : D ⊆ D2) {o : Option ℤ}
    (h : memOpt o D = true) : memOpt o D2 = true := by
  cases o with
  | none => cases h
  | some i =>
    simp only [memOpt, decide_eq_true_eq] at h ⊢
    exact hsub h

/-- The frame check does not depend on the deletion set beyond the skip. -/
theorem frameCheckOne_congr {st : Store} {tub : String} {D D2 : Finset ℤ}
    {minB maxB : ℤ} {r : Record}
    (h1 : memOpt r.idx D = false) (h2 : memOpt r.idx D2 = false) :
    frameCheckOne st tub D minB maxB r = frameCheckOne st tub D2 minB maxB r := by
  unfold frameCheckOne
  rw [h1, h2]

theorem frameProblems_sub {st : Store} {tub : String} {D : Finset ℤ}
    {minB maxB maxZ : ℤ} {x : Problem}
    (h : x ∈ frameProblems st tub D minB maxB) :
    x ∈ problemsFor st tub D minB maxB maxZ := by
  obtain ⟨t, ht⟩ := problemsFor_extend st tub D minB maxB maxZ
  rw [ht]
  exact List.mem_append_left t h

/-- With every old finding already deleted, the frame pass reports nothing. -/
theorem frameProblems_empty_of_covered {st : Store} {tub : String}
    {D D2 : Finset ℤ} {minB maxB maxZ : ℤ}
    (hsub : D ⊆ D2)
    (hcov : ∀ x ∈ problemsFor st tub D minB maxB maxZ, memOpt x.1 D2 = true) :
    frameProblems st tub D2 minB maxB = [] := by
  unfold frameProblems
  rw [List.filterMap_eq_nil_iff]
  intro r hr
  by_cases hD2 : memOpt r.idx D2 = true
  · simp [frameCheckOne, hD2]
  · simp only [Bool.not_eq_true] at hD2
    have hD : memOpt r.idx D = false := by
      by_contra hcon
      simp only [Bool.not_eq_false] at hcon
      rw [memOpt_mono hsub hcon] at hD2
      cases hD2
    rw [← frameCheckOne_congr hD hD2]
    cases hc : frameCheckOne st tub D minB maxB r with
    | none => rfl
    | some p =>
      exfalso
      have hmem : p ∈ frameProblems st tub D minB maxB :=
        List.mem_filterMap.mpr ⟨r, hr, hc⟩
      have hp1 := (frameCheckOne_not_deleted hc).1
      have := hcov p (frameProblems_sub hmem)
      rw [hp1] at this
      rw [this] at hD2
      cases hD2

theorem foldl_flag_nil {st : Store} {tub : String} {D2 : Finset ℤ}
    {rs : List Record} {seq : List ℕ}
    (h : ∀ pos ∈ seq, zeroFlagPos st tub D2 rs [] pos = []) :
    seq.foldl (zeroFlagPos st tub D2 rs) [] = [] := by
  induction seq with
  | nil => rfl
  | cons q rest ih =>
    rw [List.foldl_cons, h q (by simp)]
    exact ih (fun pos hp => h pos (by simp [hp]))

theorem foldl_seq_nil {st : Store} {tub : String} {D2 : Finset ℤ}
    {rs : List Record} {maxZ : ℤ} {seqs : List (List ℕ)}
    (h : ∀ seq ∈ seqs, zeroSeqStep st tub D2 rs maxZ [] seq = []) :
    seqs.foldl (zeroSeqStep st tub D2 rs maxZ) [] = [] := by
  induction seqs with
  | nil => rfl
  | cons s rest ih =>
    rw [List.foldl_cons, h s (by simp)]
    exact ih (fun seq hs => h seq (by simp [hs]))

/-- NONEWPROB: once the deletion set covers every index the run would flag,
a rerun reports nothing at all. -/
theorem problemsFor_empty_of_covered {st : Store} {tub : String}
    {D D2 : Finset ℤ} {minB maxB maxZ : ℤ}
    (hsub : D ⊆ D2)
    (hcov : ∀ x ∈ problemsFor st tub D minB maxB maxZ, memOpt x.1 D2 = true) :
    problemsFor st tub D2 minB maxB maxZ = [] := by
  unfold problemsFor
  rw [frameProblems_empty_of_covered hsub hcov]
  apply foldl_seq_nil
  intro seq hseq
  unfold zeroSeqStep
  by_cases hlen : maxZ < (seq.length : ℤ)
  · rw [if_pos hlen]
    by_cases hsup : preAvg (loadRecords st) (seq.headD 0) > mkRat 1 10 ∨
        postAvg (loadRecords st) (seq.getLastD 0) > mkRat 1 10
    · rw [if_pos hsup]
    · rw [if_neg hsup]
      apply foldl_flag_nil
      intro pos hpos
      unfold zeroFlagPos
      cases hr : (loadRecords st).get? pos with
      | none => rfl
      | some r =>
        by_cases hD2 : memOpt r.idx D2 = true
        · simp [hD2]
        · simp only [Bool.not_eq_true] at hD2
          have hD : memOpt r.idx D = false := by
            by_contra hcon
            simp only [Bool.not_eq_false] at hcon
            rw [memOpt_mono hsub hcon] at hD2
            cases hD2
          cases hn : imageNameOf r with
          | none => simp [hD2, hn]
          | some name =>
            cases hp : get_image_path st tub name with
            | none => simp [hD2, hn, hp]
            | some pf =>
              exfalso
              push_neg at hsup
              have hp2 : get_image_path st tub name = some (pf.1, pf.2) := by rw [hp]
              obtain ⟨e, he, he1⟩ := foldl_seq_complete
                (frameProblems st tub D minB maxB)
                hseq hlen hsup.1 hsup.2 hpos hr hD hn hp2
              have := hcov e he
              rw [he1] at this
              rw [this] at hD2
              cases hD2
  · rw [if_neg hlen]

theorem loadDeleted_eq_nopat {m : List Char}
    (hf : (splitOnChar '\n' m).find? (fun l => containsSub patDI l) = none) :
    loadDeleted m = some (∅ : Finset ℤ) := by
  unfold loadDeleted
  rw [hf]

theorem loadDeleted_eq_nomatch {m line : List Char}
    (hf : (splitOnChar '\n' m).find? (fun l => containsSub patDI l) = some line)
    (hs : reSearchDI line = none) :
    loadDeleted m = some (∅ : Finset ℤ) := by
  unfold loadDeleted
  rw [hf]
  show (match reSearchDI line with
    | none => some (∅ : Finset ℤ)
    | some cap => parseIdxList cap) = some ∅
  rw [hs]

theorem loadDeleted_eq_match {m line cap : List Char}
    (hf : (splitOnChar '\n' m).find? (fun l => containsSub patDI l) = some line)
    (hs : reSearchDI line = some cap) :
    loadDeleted m = parseIdxList cap := by
  unfold loadDeleted
  rw [hf]
  show (match reSearchDI line with
    | none => some (∅ : Finset ℤ)
    | some cap2 => parseIdxList cap2) = parseIdxList cap
  rw [hs]

/-- The problem passes never read the manifest field of the store. -/
theorem problemsFor_manifest (st : Store) (x : Option (List Char)) (tub : String)
    (D : Finset ℤ) (minB maxB maxZ : ℤ) :
    problemsFor { st with manifest := x } tub D minB maxB maxZ =
      problemsFor st tub D minB maxB maxZ := rfl

/-- Normal form of one run once the structural checks and the manifest load
have succeeded. -/
theorem clean_tub_data_eq (st : Store) (tub : String) (remove : Bool)
    (maxB minB maxZ : ℤ) {m : List Char} {D : Finset ℤ}
    (hroot : st.rootExists = true) (hcat : st.catalogs ≠ [])
    (hm : st.manifest = some m) (hload : loadDeleted m = some D) :
    clean_tub_data st tub remove maxB minB maxZ =
      (if problemsFor st tub D minB maxB maxZ = [] then
        .ok (problemsFor st tub D minB maxB maxZ, st)
      else if remove then
        match sortedNewList D ((problemsFor st tub D minB maxB maxZ).map (fun p => p.1)) with
        | none => .error .commitCrash
        | some xs =>
          .ok (problemsFor st tub D minB maxB maxZ,
            { st with manifest := some (reSubDI (replOf xs) m) })
      else .ok (problemsFor st tub D minB maxB maxZ, st)) := by
  have h1 : ¬(st.rootExists = false) := by rw [hroot]; simp
  unfold clean_tub_data
  rw [if_neg h1, if_neg hcat]
  split
  · next heq =>
    rw [hm] at heq
    cases heq
  · next mm heq =>
    rw [hm] at heq
    injection heq with heq2
    subst heq2
    split
    · next heq3 =>
      rw [hload] at heq3
      cases heq3
    · next D2 heq3 =>
      rw [hload] at heq3
      injection heq3 with heq4
      subst heq4
      rfl

/-- A run whose manifest parsing raises leaves nothing but the error. -/
theorem clean_tub_data_loadcrash (st : Store) (tub : String) (remove : Bool)
    (maxB minB maxZ : ℤ) {m : List Char}
    (hroot : st.rootExists = true) (hcat : st.catalogs ≠ [])
    (hm : st.manifest = some m) (hload : loadDeleted m = none) :
    clean_tub_data st tub remove maxB minB maxZ = .error .loadCrash := by
  have h1 : ¬(st.rootExists = false) := by rw [hroot]; simp
  unfold clean_tub_data
  rw [if_neg h1, if_neg hcat]
  split
  · next heq =>
    rw [hm] at heq
    cases heq
  · next mm heq =>
    rw [hm] at heq
    injection heq with heq2
    subst heq2
    split
    · rfl
    · next D2 heq3 =>
      rw [hload] at heq3
      cases heq3

/-- C7: running the audit with `remove` twice in a row leaves the store of
the first run unchanged: the second run either finds nothing new (every
flagged index is already in the rewritten deletion list), crashes loading
the `[null]` list the first run wrote, or rewrites the manifest to the very
same text. -/
theorem audit_remove_idempotent (st : Store) (tub : String) (maxB minB maxZ : ℤ) :
    auditStep (auditStep st tub maxB minB maxZ) tub maxB minB maxZ =
      auditStep st tub maxB minB maxZ := by
  cases hrun : clean_tub_data st tub true maxB minB maxZ with
  | error e =>
    have h1 : auditStep st tub maxB minB maxZ = st := by
      unfold auditStep
      rw [hrun]
    rw [h1]
    exact h1
  | ok pr =>
    have h1 : auditStep st tub maxB minB maxZ = pr.2 := by
      unfold auditStep
      rw [hrun]
    rw [h1]
    have hrun0 := hrun
    simp only [clean_tub_data] at hrun
    split at hrun
    · cases hrun
    · split at hrun
      · cases hrun
      · rename_i hroot hcatne
        have hroot2 : st.rootExists = true := by
          revert hroot
          cases st.rootExists <;> simp
        split at hrun
        · cases hrun
        · rename_i m hm
          split at hrun
          · cases hrun
          · rename_i D hload
            split at hrun
            · simp only [Except.ok.injEq] at hrun
              have hpr2 : pr.2 = st := by rw [← hrun]
              rw [hpr2]
              unfold auditStep
              rw [hrun0]
              exact hpr2
            · rename_i hne
              split at hrun
              · split at hrun
                · cases hrun
                · rename_i xs hsn
                  simp only [Except.ok.injEq] at hrun
                  have hpr2 : pr.2 =
                      { st with manifest := some (reSubDI (replOf xs) m) } := by
                    rw [← hrun]
                  rw [hpr2]
                  have hroot' :
                      ({ st with manifest := some (reSubDI (replOf xs) m) } : Store).rootExists
                        = true := hroot2
                  have hcat' :
                      ({ st with manifest := some (reSubDI (replOf xs) m) } : Store).catalogs
                        ≠ [] := hcatne
                  rcases hfind : (splitOnChar '\n' m).find? (fun l => containsSub patDI l)
                    with _ | line
                  · have hD0 : (∅ : Finset ℤ) = D := by
                      have h2 := loadDeleted_eq_nopat hfind
                      rw [hload] at h2
                      injection h2 with h3
                      exact h3.symm
                    subst hD0
                    have hload2 : loadDeleted (reSubDI (replOf xs) m) = some (∅ : Finset ℤ) :=
                      loadDeleted_reSubDI_nopat hfind
                    have hrun2 : clean_tub_data
                        { st with manifest := some (reSubDI (replOf xs) m) }
                        tub true maxB minB maxZ =
                        .ok (problemsFor st tub ∅ minB maxB maxZ,
                          { st with manifest := some (reSubDI (replOf xs) (reSubDI (replOf xs) m)) }) := by
                      rw [clean_tub_data_eq _ tub true maxB minB maxZ hroot' hcat' rfl hload2,
                        problemsFor_manifest, if_neg hne, if_pos rfl, hsn]
                    unfold auditStep
                    rw [hrun2, reSubDI_idem xs m]
                  · rcases hsearch : reSearchDI line with _ | cap
                    · have hD0 : (∅ : Finset ℤ) = D := by
                        have h2 := loadDeleted_eq_nomatch hfind hsearch
                        rw [hload] at h2
                        injection h2 with h3
                        exact h3.symm
                      subst hD0
                      have hload2 : loadDeleted (reSubDI (replOf xs) m) = some (∅ : Finset ℤ) :=
                        loadDeleted_reSubDI_nomatch hfind hsearch
                      have hrun2 : clean_tub_data
                          { st with manifest := some (reSubDI (replOf xs) m) }
                          tub true maxB minB maxZ =
                          .ok (problemsFor st tub ∅ minB maxB maxZ,
                            { st with manifest := some (reSubDI (replOf xs) (reSubDI (replOf xs) m)) }) := by
                        rw [clean_tub_data_eq _ tub true maxB minB maxZ hroot' hcat' rfl hload2,
                          problemsFor_manifest, if_neg hne, if_pos rfl, hsn]
                      unfold auditStep
                      rw [hrun2, reSubDI_idem xs m]
                    · unfold sortedNewList at hsn
                      split at hsn
                      · split at hsn
                        · injection hsn with hxs
                          subst hxs
                          have hload2 : loadDeleted (reSubDI (replOf [none]) m) = none := by
                            rw [loadDeleted_reSubDI_match hfind hsearch]
                            exact parseIdxList_null
                          unfold auditStep
                          rw [clean_tub_data_loadcrash _ tub true maxB minB maxZ
                            hroot' hcat' rfl hload2]
                        · cases hsn
                      · rename_i hnone
                        injection hsn with hxs
                        subst hxs
                        have hcov : ∀ x ∈ problemsFor st tub D minB maxB maxZ,
                            memOpt x.1 (D ∪
                              (((problemsFor st tub D minB maxB maxZ).map
                                (fun p => p.1)).filterMap id).toFinset) = true := by
                          intro x hx
                          cases hx1 : x.1 with
                          | none =>
                            exfalso
                            apply hnone
                            rw [← hx1]
                            exact List.mem_map.mpr ⟨x, hx, rfl⟩
                          | some i =>
                            simp only [memOpt, decide_eq_true_eq]
                            apply Finset.mem_union_right
                            rw [List.mem_toFinset]
                            refine List.mem_filterMap.mpr ⟨some i, ?_, rfl⟩
                            rw [← hx1]
                            exact List.mem_map.mpr ⟨x, hx, rfl⟩
                        have hempty : problemsFor st tub
                            (D ∪ (((problemsFor st tub D minB maxB maxZ).map
                              (fun p => p.1)).filterMap id).toFinset)
                            minB maxB maxZ = [] :=
                          problemsFor_empty_of_covered Finset.subset_union_left hcov
                        have hload2 : loadDeleted (reSubDI (replOf
                            (((D ∪ (((problemsFor st tub D minB maxB maxZ).map
                              (fun p => p.1)).filterMap id).toFinset).sort
                                (· ≤ ·)).map some)) m) =
                            some (D ∪ (((problemsFor st tub D minB maxB maxZ).map
                              (fun p => p.1)).filterMap id).toFinset) := by
                          rw [loadDeleted_reSubDI_match hfind hsearch,
                            parseIdxList_dumpsBody, Finset.sort_toFinset]
                        have hrun2 : clean_tub_data
                            { st with manifest := some (reSubDI (replOf
                              (((D ∪ (((problemsFor st tub D minB maxB maxZ).map
                                (fun p => p.1)).filterMap id).toFinset).sort
                                  (· ≤ ·)).map some)) m) }
                            tub true maxB minB maxZ =
                            .ok (problemsFor st tub
                                (D ∪ (((problemsFor st tub D minB maxB maxZ).map
                                  (fun p => p.1)).filterMap id).toFinset) minB maxB maxZ,
                              { st with manifest := some (reSubDI (replOf
                                (((D ∪ (((problemsFor st tub D minB maxB maxZ).map
                                  (fun p => p.1)).filterMap id).toFinset).sort
                                    (· ≤ ·)).map some)) m) }) := by
                          rw [clean_tub_data_eq _ tub true maxB minB maxZ
                            hroot' hcat' rfl hload2, problemsFor_manifest, if_pos hempty]
                        unfold auditStep
                        rw [hrun2]
              · rename_i hnr
                exact absurd trivial hnr

theorem containsSub_append_of_right {pat x y : List Char} (h : containsSub pat y = true) :
    containsSub pat (x ++ y) = true := by
  induction x with
  | nil => exact h
  | cons c rest ih =>
    rw [List.cons_append]
    exact containsSub_tail ih

theorem containsSub_litDI_false_of_patDI {l : List Char}
    (h : containsSub patDI l = false) : containsSub litDI l = false := by
  by_contra hcon
  simp only [Bool.not_eq_false] at hcon
  rw [containsSub_patDI_of_litDI hcon] at h
  cases h

theorem map_reSubDI_id {repl : List Char} :
    ∀ {L : List (List Char)}, (∀ l ∈ L, containsSub litDI l = false) →
      L.map (reSubDI repl) = L := by
  intro L
  induction L with
  | nil => intro _; rfl
  | cons l rest ih =>
    intro h
    rw [List.map_cons, reSubDI_id (h l (by simp)), ih (fun x hx => h x (by simp [hx]))]

theorem find?_append_false {p : List Char → Bool} :
    ∀ {LA rest : List (List Char)}, (∀ l ∈ LA, p l = false) →
      (LA ++ rest).find? p = rest.find? p := by
  intro LA
  induction LA with
  | nil => intro rest _; rw [List.nil_append]
  | cons l L2 ih =>
    intro rest h
    rw [List.cons_append, List.find?_cons_of_neg _ (by rw [h l (by simp)]; simp)]
    exact ih (fun x hx => h x (by simp [hx]))

/-- The search walks over a region in which no occurrence starts. -/
theorem reSearchDI_skip :
    ∀ {a x : List Char},
      (∀ i < a.length, litDI.isPrefixOf ((a ++ x).drop i) = false) →
      reSearchDI (a ++ x) = reSearchDI x := by
  intro a
  induction a with
  | nil => intro x _; rw [List.nil_append]
  | cons c a2 ih =>
    intro x h
    have h0 : litDI.isPrefixOf (c :: (a2 ++ x)) = false := by
      have := h 0 (by simp)
      simpa using this
    rw [List.cons_append, reSearchDI_cons_nomatch h0]
    apply ih
    intro i hi
    have := h (i + 1) (by simp only [List.length_cons]; omega)
    simpa using this

/-- C2 (amended): on a manifest that writes the deleted-index field in the
single-line format the tool's regexes expect - the token on exactly one
line, no trigger before the field or after it on that line, a bracket-free
single-line body - commit rewrites exactly the bracketed field to the sorted
union and a subsequent load returns that union. -/
theorem commit_then_load_roundtrip
    (LA LB : List (List Char)) (u v body : List Char) (D : Finset ℤ) (newIdx : List ℤ)
    (hnlA : ∀ l ∈ LA, ∀ c ∈ l, c ≠ '\n')
    (hnlB : ∀ l ∈ LB, ∀ c ∈ l, c ≠ '\n')
    (hnlu : ∀ c ∈ u, c ≠ '\n') (hnlv : ∀ c ∈ v, c ≠ '\n')
    (hA : ∀ l ∈ LA, containsSub patDI l = false)
    (hB : ∀ l ∈ LB, containsSub patDI l = false)
    (hu : ∀ i < u.length,
      litDI.isPrefixOf ((u ++ (litDI ++ (body ++ ']' :: v))).drop i) = false)
    (hv : containsSub litDI v = false)
    (hbody : ∀ c ∈ body, c ≠ ']' ∧ c ≠ '\n')
    (hparse : parseIdxList body = some D) :
    commitManifest (joinNl (LA ++ (u ++ (litDI ++ (body ++ ']' :: v))) :: LB)) newIdx =
      some (joinNl (LA ++
        (u ++ (replOf (((D ∪ newIdx.toFinset).sort (· ≤ ·)).map some) ++ v)) :: LB)) ∧
    loadDeleted (joinNl (LA ++
        (u ++ (replOf (((D ∪ newIdx.toFinset).sort (· ≤ ·)).map some) ++ v)) :: LB)) =
      some (D ∪ newIdx.toFinset) := by
  have hlinesfree : ∀ l ∈ LA ++ (u ++ (litDI ++ (body ++ ']' :: v))) :: LB,
      ∀ c ∈ l, c ≠ '\n' := by
    intro l hl
    rcases List.mem_append.mp hl with he | he
    · exact hnlA l he
    · rcases List.mem_cons.mp he with he2 | he2
      · subst he2
        intro c hc
        rcases List.mem_append.mp hc with h1 | h1
        · exact hnlu c h1
        · rcases List.mem_append.mp h1 with h2 | h2
          · exact fun heq => newline_not_mem_litDI (heq ▸ h2)
          · rcases List.mem_append.mp h2 with h3 | h3
            · exact (hbody c h3).2
            · rcases List.mem_cons.mp h3 with h4 | h4
              · subst h4; decide
              · exact hnlv c h4
      · exact hnlB l he2
  have hsplit : splitOnChar '\n' (joinNl (LA ++ (u ++ (litDI ++ (body ++ ']' :: v))) :: LB)) =
      LA ++ (u ++ (litDI ++ (body ++ ']' :: v))) :: LB :=
    splitOnChar_joinNl (by simp) hlinesfree
  have hfieldpat : containsSub patDI (u ++ (litDI ++ (body ++ ']' :: v))) = true :=
    containsSub_append_of_right
      (containsSub_of_isPrefixOf (isPrefixOf_mono patDI_isPrefixOf_litDI))
  have hfindm : (splitOnChar '\n'
      (joinNl (LA ++ (u ++ (litDI ++ (body ++ ']' :: v))) :: LB))).find?
        (fun l => containsSub patDI l) = some (u ++ (litDI ++ (body ++ ']' :: v))) := by
    rw [hsplit, find?_append_false hA, List.find?_cons_of_pos _ hfieldpat]
  have hsearch : reSearchDI (u ++ (litDI ++ (body ++ ']' :: v))) = some body := by
    rw [reSearchDI_skip hu]
    exact reSearchDI_hit hbody
  have hloadm : loadDeleted (joinNl (LA ++ (u ++ (litDI ++ (body ++ ']' :: v))) :: LB)) =
      some D := by
    rw [loadDeleted_eq_match hfindm hsearch]
    exact hparse
  have hfm : reSubDI (replOf (((D ∪ newIdx.toFinset).sort (· ≤ ·)).map some))
      (joinNl (LA ++ (u ++ (litDI ++ (body ++ ']' :: v))) :: LB)) =
      joinNl (LA ++
        (u ++ (replOf (((D ∪ newIdx.toFinset).sort (· ≤ ·)).map some) ++ v)) :: LB) := by
    rw [reSubDI_joinNl, List.map_append, List.map_cons]
    rw [map_reSubDI_id (fun l hl => containsSub_litDI_false_of_patDI (hA l hl))]
    rw [map_reSubDI_id (fun l hl => containsSub_litDI_false_of_patDI (hB l hl))]
    rw [reSubDI_skip hu]
    have hsh : litDI ++ (body ++ ']' :: v) = litDI ++ body ++ ']' :: v := by
      simp
    rw [hsh, reSubDI_match hbody, reSubDI_id hv]
  constructor
  · unfold commitManifest
    rw [hloadm]
    show some (reSubDI (replOf (((D ∪ newIdx.toFinset).sort (· ≤ ·)).map some))
      (joinNl (LA ++ (u ++ (litDI ++ (body ++ ']' :: v))) :: LB))) = _
    rw [hfm]
  · rw [← hfm, loadDeleted_reSubDI_match hfindm hsearch, parseIdxList_dumpsBody,
      Finset.sort_toFinset]

theorem commit_then_load_roundtrip_witness :
    commitManifest (joinNl ([[ 'a' ]] ++
        ([' '] ++ (litDI ++ (['1'] ++ ']' :: [',']))) :: [[ 'b' ]])) [3] =
      some (joinNl ([[ 'a' ]] ++
        ([' '] ++ (replOf (((({1} : Finset ℤ) ∪ ([3] : List ℤ).toFinset).sort (· ≤ ·)).map some)
          ++ [','])) :: [[ 'b' ]])) ∧
    loadDeleted (joinNl ([[ 'a' ]] ++
        ([' '] ++ (replOf (((({1} : Finset ℤ) ∪ ([3] : List ℤ).toFinset).sort (· ≤ ·)).map some)
          ++ [','])) :: [[ 'b' ]])) =
      some (({1} : Finset ℤ) ∪ ([3] : List ℤ).toFinset) :=
  commit_then_load_roundtrip [[ 'a' ]] [[ 'b' ]] [' '] [','] ['1'] {1} [3]
    (by decide) (by decide) (by decide) (by decide) (by decide) (by decide)
    (by decide) (by decide) (by decide) (by decide)
end CleanImage
